import Mathlib

/-!
# TruthChain validation-and-correction pipeline: a shallow embedding

This file embeds the core of the TruthChain validation pipeline in Lean 4 and
proves properties of it:

* `backend/core/rule_engine.py` — the per-kind rule evaluators (`_validate_range`,
  `_validate_constraint`, `_validate_enum`, `_validate_required`,
  `_validate_anomaly_ml`) and the dot-path helper `_get_nested_value`;
* `backend/core/auto_corrector.py` — the correction strategy chain and
  `AutoCorrector.fix`, embedded over an explicit heap so that Python's
  in-place dict mutation and `deepcopy` semantics are visible;
* `backend/core/confidence_scorer.py` — the confidence factors;
* `backend/core/external_reference.py` — the connector registry `check`;
* `backend/core/ml_anomaly_detector.py` — the untrained-organisation paths of
  `score` and the model registry.

Machine floats of the Python source are modelled as exact rationals (`ℚ`)
except in the confidence scorer, where `math.exp` forces the real number model.
Python `None` is `Value.null`; a Python value that may be absent is an
`Option Value`.
-/

namespace TruthChain

/-- A JSON-like document tree: the dynamic values flowing through the pipeline
(documents, rule parameters, violation payloads). Python `None` is `null`. -/
inductive Value where
  | null : Value
  | bool (b : Bool) : Value
  | num (q : ℚ) : Value
  | str (s : String) : Value
  | arr (xs : List Value) : Value
  | obj (fs : List (String × Value)) : Value
  deriving Repr

/-- Size measure used for strong induction over `Value` trees. -/
def Value.vsize : Value → ℕ
  | .null => 1
  | .bool _ => 1
  | .num _ => 1
  | .str _ => 1
  | .arr xs => 1 + vsizeList xs
  | .obj fs => 1 + vsizeFields fs
where
  vsizeList : List Value → ℕ
    | [] => 0
    | v :: rest => vsize v + vsizeList rest
  vsizeFields : List (String × Value) → ℕ
    | [] => 0
    | (_, v) :: rest => vsize v + vsizeFields rest

mutual

/-- Decidable structural equality on document trees. -/
def Value.beq : Value → Value → Bool
  | .null, .null => true
  | .bool a, .bool b => a == b
  | .num a, .num b => a == b
  | .str a, .str b => a == b
  | .arr a, .arr b => beqList a b
  | .obj a, .obj b => beqFields a b
  | _, _ => false

def Value.beqList : List Value → List Value → Bool
  | [], [] => true
  | a :: as, b :: bs => Value.beq a b && Value.beqList as bs
  | _, _ => false

def Value.beqFields : List (String × Value) → List (String × Value) → Bool
  | [], [] => true
  | (ka, va) :: as, (kb, vb) :: bs => ka == kb && Value.beq va vb && Value.beqFields as bs
  | _, _ => false

end

mutual

theorem Value.beq_refl : ∀ v : Value, Value.beq v v = true
  | .null => rfl
  | .bool b => by simp [Value.beq]
  | .num q => by simp [Value.beq]
  | .str s => by simp [Value.beq]
  | .arr xs => by simp [Value.beq, Value.beqList_refl xs]
  | .obj fs => by simp [Value.beq, Value.beqFields_refl fs]

theorem Value.beqList_refl : ∀ xs : List Value, Value.beqList xs xs = true
  | [] => rfl
  | v :: rest => by simp [Value.beqList, Value.beq_refl v, Value.beqList_refl rest]

theorem Value.beqFields_refl : ∀ fs : List (String × Value), Value.beqFields fs fs = true
  | [] => rfl
  | (k, v) :: rest => by
      simp [Value.beqFields, Value.beq_refl v, Value.beqFields_refl rest]

end

mutual

theorem Value.eq_of_beq : ∀ {a b : Value}, Value.beq a b = true → a = b
  | .null, .null, _ => rfl
  | .bool _, .bool _, h => by simp [Value.beq] at h; simp [h]
  | .num _, .num _, h => by simp [Value.beq] at h; simp [h]
  | .str _, .str _, h => by simp [Value.beq] at h; simp [h]
  | .arr xs, .arr ys, h => by
      have := Value.eqList_of_beq (a := xs) (b := ys) (by simpa [Value.beq] using h)
      simp_all
  | .obj fs, .obj gs, h => by
      have := Value.eqFields_of_beq (a := fs) (b := gs) (by simpa [Value.beq] using h)
      simp_all

theorem Value.eqList_of_beq : ∀ {a b : List Value}, Value.beqList a b = true → a = b
  | [], [], _ => rfl
  | x :: xs, y :: ys, h => by
      have h' : Value.beq x y = true ∧ Value.beqList xs ys = true := by
        simpa [Value.beqList, Bool.and_eq_true] using h
      have h1 := Value.eq_of_beq h'.1
      have h2 := Value.eqList_of_beq h'.2
      simp_all

theorem Value.eqFields_of_beq :
    ∀ {a b : List (String × Value)}, Value.beqFields a b = true → a = b
  | [], [], _ => rfl
  | (ka, va) :: as, (kb, vb) :: bs, h => by
      have h' : (ka == kb && Value.beq va vb) = true ∧ Value.beqFields as bs = true := by
        simpa [Value.beqFields, Bool.and_eq_true, and_assoc] using h
      have hk : ka = kb := by
        have := h'.1
        simp [Bool.and_eq_true] at this
        exact this.1
      have hv : va = vb := Value.eq_of_beq (by
        have := h'.1
        simp [Bool.and_eq_true] at this
        exact this.2)
      have ht := Value.eqFields_of_beq h'.2
      simp_all

end

instance : DecidableEq Value := fun a b =>
  if h : Value.beq a b = true then
    .isTrue (Value.eq_of_beq h)
  else
    .isFalse (fun he => h (he ▸ Value.beq_refl a))

/-! ## Python semantics helpers -/

/-- Python truthiness (`bool(x)`): `None`, `False`, `0`, `""`, `[]` and `{}`
are falsy, everything else truthy. -/
def pyTruthy : Value → Bool
  | .null => false
  | .bool b => b
  | .num q => q != 0
  | .str s => s ≠ ""
  | .arr xs => xs ≠ []
  | .obj fs => fs ≠ []

/-- Rendering of a rational for message strings. Integral values print the way
Python prints `int`s; the pipeline only ever interpolates integral rule bounds
into messages, so the non-integral fallback (numerator/denominator) is not
observable in any theorem below. -/
def qToString (q : ℚ) : String :=
  if q.den = 1 then toString q.num else toString q.num ++ "/" ++ toString q.den

/-- Python `str(x)` for the scalar values the pipeline interpolates into
messages. Containers are rendered only shallowly; no theorem below depends on
container rendering. -/
def pyStr : Value → String
  | .null => "None"
  | .bool b => if b then "True" else "False"
  | .num q => qToString q
  | .str s => s
  | .arr _ => "[...]"
  | .obj _ => "\x7b" ++ "...\x7d"

/-- Infix test on character lists (structural, so that concrete instances
reduce inside the kernel). -/
def infixOfCs (sub : List Char) : List Char → Bool
  | [] => sub.isEmpty
  | c :: rest => sub.isPrefixOf (c :: rest) || infixOfCs sub rest

/-- Python's substring test `sub in s` (always true for the empty string). -/
def pyContains (s sub : String) : Bool :=
  infixOfCs sub.toList s.toList

/-- ASCII lowering of one character; Python's `str.lower()` is full Unicode,
but every string the pipeline lowers is ASCII. -/
def charLower (c : Char) : Char :=
  if 'A' ≤ c ∧ c ≤ 'Z' then Char.ofNat (c.toNat + 32) else c

/-- `s.lower()`. -/
def pyLower (s : String) : String :=
  ⟨s.toList.map charLower⟩

/-- Python whitespace (`str.strip()` / `float()` stripping). -/
def isPySpace (c : Char) : Bool :=
  c = ' ' || c = '\t' || c = '\n' || c = '\r' || c = '\x0b' || c = '\x0c'

/-- `s.strip()`. -/
def pyStrip (s : String) : String :=
  ⟨((s.toList.dropWhile isPySpace).reverse.dropWhile isPySpace).reverse⟩

/-- First-match lookup in an insertion-ordered dict, with a default:
`d.get(k, default)`. -/
def dictGetD : List (String × Value) → String → Value → Value
  | [], _, d => d
  | (k, v) :: rest, key, d => if k = key then v else dictGetD rest key d

/-- `d.get(k)`: `None` when the key is absent. -/
def dictGet (fs : List (String × Value)) (k : String) : Value :=
  dictGetD fs k .null

/-- Digit run of a numeric literal, returned with the remaining input. -/
def spanDigits (cs : List Char) : List Char × List Char :=
  (cs.takeWhile Char.isDigit, cs.dropWhile Char.isDigit)

/-- Value of a digit run. -/
def digitsToNat (cs : List Char) : ℕ :=
  cs.foldl (fun acc c => acc * 10 + (c.toNat - 48)) 0

/-- Parses `digits [. digits*] | . digits+` off the front of the input,
returning the value and the rest. -/
def parseUnsignedDec (cs : List Char) : Option (ℚ × List Char) :=
  let (ip, r1) := spanDigits cs
  match r1 with
  | '.' :: r2 =>
      let (fp, r3) := spanDigits r2
      if ip = [] ∧ fp = [] then none
      else some ((digitsToNat ip : ℚ) + (digitsToNat fp : ℚ) / ((10 : ℚ) ^ fp.length), r3)
  | _ => if ip = [] then none else some ((digitsToNat ip : ℚ), r1)

/-- Parses an optional exponent suffix `([eE][+-]?digits)?`; fails on a
malformed exponent. -/
def parseExpSuffix (cs : List Char) : Option (ℤ × List Char) :=
  match cs with
  | 'e' :: r | 'E' :: r =>
      let (sgn, r1) : ℤ × List Char :=
        match r with
        | '+' :: tl => (1, tl)
        | '-' :: tl => (-1, tl)
        | _ => (1, r)
      let (ds, r2) := spanDigits r1
      if ds = [] then none else some (sgn * (digitsToNat ds : ℤ), r2)
  | _ => some (0, cs)

/-- Python `float(s)` on a string: optional sign, decimal mantissa, optional
exponent, the whole (whitespace-stripped) string consumed. The `inf`/`nan`
spellings and `_` digit separators accepted by CPython are outside the model;
no rule or document below uses them. -/
def parsePyFloat (s : String) : Option ℚ :=
  let cs := (pyStrip s).toList
  let (sgn, cs1) : ℚ × List Char :=
    match cs with
    | '+' :: r => (1, r)
    | '-' :: r => (-1, r)
    | _ => (1, cs)
  match parseUnsignedDec cs1 with
  | none => none
  | some (m, r) =>
      match parseExpSuffix r with
      | none => none
      | some (e, r2) => if r2 = [] then some (sgn * m * (10 : ℚ) ^ e) else none

/-- Python `float(x)` over dynamic values: numbers pass through, booleans
coerce to 0/1, strings are parsed, everything else (`None`, lists, dicts)
raises — modelled as `none`. -/
def pyFloat : Value → Option ℚ
  | .num q => some q
  | .bool b => some (if b then 1 else 0)
  | .str s => parsePyFloat s
  | _ => none

/-! ## Dot-path lookup (`RuleEngine._get_nested_value`) -/

/-- The loop body of `_get_nested_value`: follow each key through dict nodes
only; any non-dict value met while keys remain yields Python `None`. -/
def getNestedKeys : Value → List String → Value
  | v, [] => v
  | .obj fs, k :: rest => getNestedKeys (dictGet fs k) rest
  | _, _ :: _ => .null

/-- Splitting a character list on a single separator character, Python
`split(sep)` style: `n` separators yield `n + 1` (possibly empty) groups. -/
def splitOnChar (c : Char) : List Char → List (List Char)
  | [] => [[]]
  | x :: rest =>
    match splitOnChar c rest with
    | [] => [[]]
    | g :: gs => if x = c then [] :: g :: gs else (x :: g) :: gs

/-- `path.split('.')`, exactly Python's behaviour for the non-empty
separator `"."`. -/
def splitPath (path : String) : List String :=
  (splitOnChar '.' path.toList).map fun cs => ⟨cs⟩

/-- `RuleEngine._get_nested_value(obj, path)` (the same code is duplicated as
`_get_field_value` in every correction strategy and as
`MLAnomalyDetector._get_nested`). -/
def get_nested_value (obj : Value) (path : String) : Value :=
  getNestedKeys obj (splitPath path)

example : get_nested_value (.obj [("user", .obj [("hours", .num 30)])]) "user.hours"
    = .num 30 := by decide
example : get_nested_value (.obj [("a", .arr [.num 1, .num 2])]) "a.0" = .null := by decide

/-! ## Violations (`backend/core/validation_engine.py`) -/

/-- `ViolationType` enum. -/
inductive ViolationType where
  | schema
  | constraint
  | reference
  | statistical
  | semantic
  deriving DecidableEq, Repr

/-- The `Violation` pydantic model. `found_value : Any` may be Python `None`
(`Value.null`); `expected_value`/`suggestion` default to `None` (`none`). -/
structure Violation where
  rule_name : String
  violation_type : ViolationType
  field : String
  message : String
  severity : String
  found_value : Value
  expected_value : Option Value := none
  suggestion : Option String := none
  deriving DecidableEq, Repr

/-- Python `repr` of a scalar, as it appears inside a rendered list. -/
def pyRepr (v : Value) : String :=
  match v with
  | .str s => "\x27" ++ s ++ "\x27"
  | _ => pyStr v

/-- Python `str` of a list value (`f"{valid_options}"`). -/
def pyStrList (xs : List Value) : String :=
  "[" ++ String.intercalate ", " (xs.map pyRepr) ++ "]"

/-! ## `RuleEngine._validate_range` -/

/-- The fields `_validate_range` reads off a `range` rule dict. An absent key
and an explicit `None` both read back as `none`. -/
structure RangeRule where
  field : String
  min? : Option Value := none
  max? : Option Value := none
  name? : Option String := none
  severity? : Option String := none

/-- `rule.get('name', f'{field}_range_check')`. -/
def RangeRule.ruleName (r : RangeRule) : String :=
  r.name?.getD (r.field ++ "_range_check")

/-- The `try` block of `_validate_range` after `float(value)` succeeded:
`none` when `float(min_val)` or `float(max_val)` raises, otherwise the
computed `is_invalid` flag. Bounds are coerced left to right, mirroring
Python's evaluation order. -/
def rangeIsInvalid (num_value : ℚ) (min? max? : Option Value) : Option Bool := do
  let inv1 ← match min? with
    | none => some false
    | some mv => (pyFloat mv).map fun m => decide (num_value < m)
  let inv2 ← match max? with
    | none => some false
    | some mv => (pyFloat mv).map fun m => decide (m < num_value)
  some (inv1 || inv2)

/-- `RuleEngine._validate_range`. -/
def validateRange (output : Value) (rule : RangeRule) : List Violation :=
  let field := rule.field
  let value := get_nested_value output field
  if value = .null then []
  else
    let numberViol : List Violation :=
      [{ rule_name := rule.ruleName, violation_type := .constraint, field := field,
         message := field ++ " must be a number", severity := "error",
         found_value := value, expected_value := some (.str "numeric value") }]
    match pyFloat value with
    | none => numberViol
    | some num_value =>
      match rangeIsInvalid num_value rule.min? rule.max? with
      | none => numberViol
      | some false => []
      | some true =>
        let severity := rule.severity?.getD "error"
        match rule.min?, rule.max? with
        | some mv, some Mv =>
            [{ rule_name := rule.ruleName, violation_type := .constraint, field := field,
               message := field ++ " must be between " ++ pyStr mv ++ " and " ++ pyStr Mv,
               severity := severity, found_value := value,
               expected_value := some (.obj [("min", mv), ("max", Mv)]) }]
        | some mv, none =>
            [{ rule_name := rule.ruleName, violation_type := .constraint, field := field,
               message := field ++ " must be >= " ++ pyStr mv,
               severity := severity, found_value := value,
               expected_value := some (.obj [("min", mv)]) }]
        | none, some Mv =>
            [{ rule_name := rule.ruleName, violation_type := .constraint, field := field,
               message := field ++ " must be <= " ++ pyStr Mv,
               severity := severity, found_value := value,
               expected_value := some (.obj [("max", Mv)]) }]
        | none, none => []

/-! ## `RuleEngine._validate_enum` -/

/-- The fields `_validate_enum` reads off an `enum` rule dict. -/
structure EnumRule where
  field? : Option String := none
  valid_options : List Value := []
  name? : Option String := none
  severity? : Option String := none

/-- `RuleEngine._validate_enum`. -/
def validateEnum (output : Value) (rule : EnumRule) : List Violation :=
  match rule.field? with
  | none => []
  | some field =>
    if field = "" ∨ rule.valid_options = [] then []
    else
      let value := get_nested_value output field
      if value = .null then []
      else if (rule.valid_options.map pyStr).contains (pyStr value) then []
      else
        [{ rule_name := rule.name?.getD (field ++ "_enum_check"),
           violation_type := .constraint, field := field,
           message := field ++ " value \x27" ++ pyStr value ++ "\x27 is not in allowed list: "
             ++ pyStrList rule.valid_options,
           severity := rule.severity?.getD "error", found_value := value,
           expected_value := some (.obj [("valid_options", .arr rule.valid_options)]),
           suggestion := some ("Use one of: "
             ++ String.intercalate ", " (rule.valid_options.map pyStr)) }]

/-! ## `RuleEngine._validate_required` -/

/-- The fields `_validate_required` reads off a `required` rule dict. -/
structure RequiredRule where
  field? : Option String := none
  default_value? : Option Value := none
  name? : Option String := none
  severity? : Option String := none

/-- `RuleEngine._validate_required`. -/
def validateRequired (output : Value) (rule : RequiredRule) : List Violation :=
  match rule.field? with
  | none => []
  | some field =>
    if field = "" then []
    else
      let value := get_nested_value output field
      if value ≠ .null then []
      else
        let dv := rule.default_value?.getD .null
        [{ rule_name := rule.name?.getD (field ++ "_required"),
           violation_type := .schema, field := field,
           message := "Required field \x27" ++ field ++ "\x27 is missing or null",
           severity := rule.severity?.getD "error", found_value := .null,
           expected_value := some (if dv = .null then .str "non-null value"
             else .obj [("default_value", dv)]),
           suggestion := some (if dv = .null then "Provide a value for \x27" ++ field ++ "\x27"
             else "Set \x27" ++ field ++ "\x27 to \x27" ++ pyStr dv ++ "\x27") }]

/-- The document `{hours: 30}` of the spec's first testable property. -/
def hoursDoc : Value := .obj [("hours", .num 30)]

/-- The rule `{type: range, field: hours, min: 0, max: 24}`. -/
def hoursRule : RangeRule :=
  { field := "hours", min? := some (.num 0), max? := some (.num 24) }

/-- The single violation `_validate_range` produces on `{hours: 30}`. -/
def hoursViolation : Violation :=
  { rule_name := "hours_range_check", violation_type := .constraint, field := "hours",
    message := "hours must be between 0 and 24", severity := "error",
    found_value := .num 30,
    expected_value := some (.obj [("min", .num 0), ("max", .num 24)]) }

example : validateRange hoursDoc hoursRule = [hoursViolation] := by decide

/-! ## `RuleEngine._validate_constraint`

The source evaluates the rule's expression string with Python `eval` over a
namespace holding only the bound name `value` and the allow-listed pure
functions `abs`/`len`/`min`/`max`/`sum`. Following the spec's design note, the
expression language is embedded as a small AST over exactly those operators
and functions; `eval`'s surface parsing is outside the model (a rule carries
the already-parsed expression). -/

/-- Expressions of the restricted `constraint` language: arithmetic,
comparisons, boolean connectives, the single bound name `value`, and the
allow-listed functions. -/
inductive CExpr where
  | lit (v : Value)
  | var
  | neg (a : CExpr)
  | add (a b : CExpr)
  | sub (a b : CExpr)
  | mul (a b : CExpr)
  | div (a b : CExpr)
  | lt (a b : CExpr)
  | le (a b : CExpr)
  | gt (a b : CExpr)
  | ge (a b : CExpr)
  | eq (a b : CExpr)
  | ne (a b : CExpr)
  | and (a b : CExpr)
  | or (a b : CExpr)
  | not (a : CExpr)
  | absF (a : CExpr)
  | lenF (a : CExpr)
  deriving Repr

/-- Python's numeric view of a value for arithmetic/ordering: numbers are
themselves, booleans are 0/1, everything else does not take part. -/
def asNumber : Value → Option ℚ
  | .num q => some q
  | .bool b => some (if b then 1 else 0)
  | _ => none

mutual

/-- Python `==` (never raises): numbers and booleans compare numerically,
other values structurally; values of unrelated types are unequal. -/
def pyEq : Value → Value → Bool
  | .str a, .str b => a == b
  | .null, .null => true
  | .arr a, .arr b => pyEqList a b
  | .obj a, .obj b => pyEqFields a b
  | a, b =>
    match asNumber a, asNumber b with
    | some x, some y => x == y
    | _, _ => false

def pyEqList : List Value → List Value → Bool
  | [], [] => true
  | a :: as, b :: bs => pyEq a b && pyEqList as bs
  | _, _ => false

def pyEqFields : List (String × Value) → List (String × Value) → Bool
  | [], [] => true
  | (ka, va) :: as, (kb, vb) :: bs => ka == kb && pyEq va vb && pyEqFields as bs
  | _, _ => false

end

/-- A Python ordering comparison (`<` and friends): numeric for
numbers/booleans, lexicographic for strings, a `TypeError` otherwise. -/
def pyLtVal : Value → Value → Except String Bool
  | .str a, .str b => .ok (decide (a < b))
  | a, b =>
    match asNumber a, asNumber b with
    | some x, some y => .ok (decide (x < y))
    | _, _ => .error "\x27<\x27 not supported between instances"

/-- Evaluation of a `constraint` expression against the bound `value`.
`Except.error` is a raised Python exception carrying its message. -/
def pyEvalExpr (value : Value) : CExpr → Except String Value
  | .lit v => .ok v
  | .var => .ok value
  | .neg a => do
      match asNumber (← pyEvalExpr value a) with
      | some x => .ok (.num (-x))
      | none => .error "bad operand type for unary -"
  | .add a b => do
      let ea ← pyEvalExpr value a
      let eb ← pyEvalExpr value b
      match ea, eb with
      | .str x, .str y => .ok (.str (x ++ y))
      | _, _ =>
        match asNumber ea, asNumber eb with
        | some x, some y => .ok (.num (x + y))
        | _, _ => .error "unsupported operand type(s) for +"
  | .sub a b => do
      match asNumber (← pyEvalExpr value a), asNumber (← pyEvalExpr value b) with
      | some x, some y => .ok (.num (x - y))
      | _, _ => .error "unsupported operand type(s) for -"
  | .mul a b => do
      match asNumber (← pyEvalExpr value a), asNumber (← pyEvalExpr value b) with
      | some x, some y => .ok (.num (x * y))
      | _, _ => .error "unsupported operand type(s) for *"
  | .div a b => do
      match asNumber (← pyEvalExpr value a), asNumber (← pyEvalExpr value b) with
      | some x, some y =>
          if y = 0 then .error "division by zero" else .ok (.num (x / y))
      | _, _ => .error "unsupported operand type(s) for /"
  | .lt a b => do
      .ok (.bool (← pyLtVal (← pyEvalExpr value a) (← pyEvalExpr value b)))
  | .le a b => do
      let ea ← pyEvalExpr value a
      let eb ← pyEvalExpr value b
      let l ← pyLtVal ea eb
      .ok (.bool (l || pyEq ea eb))
  | .gt a b => do
      .ok (.bool (← pyLtVal (← pyEvalExpr value b) (← pyEvalExpr value a)))
  | .ge a b => do
      let ea ← pyEvalExpr value a
      let eb ← pyEvalExpr value b
      let l ← pyLtVal eb ea
      .ok (.bool (l || pyEq ea eb))
  | .eq a b => do
      .ok (.bool (pyEq (← pyEvalExpr value a) (← pyEvalExpr value b)))
  | .ne a b => do
      .ok (.bool (!pyEq (← pyEvalExpr value a) (← pyEvalExpr value b)))
  | .and a b => do
      let ea ← pyEvalExpr value a
      if pyTruthy ea then pyEvalExpr value b else .ok ea
  | .or a b => do
      let ea ← pyEvalExpr value a
      if pyTruthy ea then .ok ea else pyEvalExpr value b
  | .not a => do
      .ok (.bool (!pyTruthy (← pyEvalExpr value a)))
  | .absF a => do
      match asNumber (← pyEvalExpr value a) with
      | some x => .ok (.num |x|)
      | none => .error "bad operand type for abs()"
  | .lenF a => do
      match ← pyEvalExpr value a with
      | .str s => .ok (.num s.length)
      | .arr xs => .ok (.num xs.length)
      | .obj fs => .ok (.num fs.length)
      | _ => .error "object has no len()"

/-- Rendering of an expression for interpolation into messages (the Python
source interpolates the original expression string; no theorem below depends
on more than this rendering being a fixed function of the expression). -/
def CExpr.render : CExpr → String
  | .lit v => pyRepr v
  | .var => "value"
  | .neg a => "(-" ++ a.render ++ ")"
  | .add a b => "(" ++ a.render ++ " + " ++ b.render ++ ")"
  | .sub a b => "(" ++ a.render ++ " - " ++ b.render ++ ")"
  | .mul a b => "(" ++ a.render ++ " * " ++ b.render ++ ")"
  | .div a b => "(" ++ a.render ++ " / " ++ b.render ++ ")"
  | .lt a b => "(" ++ a.render ++ " < " ++ b.render ++ ")"
  | .le a b => "(" ++ a.render ++ " <= " ++ b.render ++ ")"
  | .gt a b => "(" ++ a.render ++ " > " ++ b.render ++ ")"
  | .ge a b => "(" ++ a.render ++ " >= " ++ b.render ++ ")"
  | .eq a b => "(" ++ a.render ++ " == " ++ b.render ++ ")"
  | .ne a b => "(" ++ a.render ++ " != " ++ b.render ++ ")"
  | .and a b => "(" ++ a.render ++ " and " ++ b.render ++ ")"
  | .or a b => "(" ++ a.render ++ " or " ++ b.render ++ ")"
  | .not a => "(not " ++ a.render ++ ")"
  | .absF a => "abs(" ++ a.render ++ ")"
  | .lenF a => "len(" ++ a.render ++ ")"

/-- The fields `_validate_constraint` reads off a `constraint` rule dict. -/
structure ConstraintRule where
  field : String
  expression : CExpr
  name? : Option String := none
  message? : Option String := none
  severity? : Option String := none

/-- `RuleEngine._validate_constraint`: evaluate, test the result for Python
truthiness, convert a raised exception into a `warning` violation. -/
def validateConstraint (output : Value) (rule : ConstraintRule) : List Violation :=
  let value := get_nested_value output rule.field
  if value = .null then []
  else
    match pyEvalExpr value rule.expression with
    | .ok r =>
      if pyTruthy r then []
      else
        [{ rule_name := rule.name?.getD (rule.field ++ "_constraint"),
           violation_type := .constraint, field := rule.field,
           message := rule.message?.getD ("Constraint failed: " ++ rule.expression.render),
           severity := rule.severity?.getD "error", found_value := value,
           expected_value := some (.str rule.expression.render) }]
    | .error e =>
        [{ rule_name := rule.name?.getD (rule.field ++ "_constraint"),
           violation_type := .constraint, field := rule.field,
           message := "Constraint evaluation error: " ++ e,
           severity := "warning", found_value := value }]

/-! ## `MLAnomalyDetector` (`backend/core/ml_anomaly_detector.py`) -/

/-- One cached entry of the per-organisation model registry:
`{"model": IsolationForest, "fields": [...], "n_samples": int}`. The fitted
model itself is opaque; only its `decision_function` on one feature row is
observable. -/
structure ModelEntry where
  model : List ℚ → ℚ
  fields : List String
  n_samples : ℕ

/-- `MLAnomalyScore` dataclass. -/
structure MLAnomalyScore where
  org_id : String
  is_anomaly : Bool
  raw_score : ℚ
  severity : String
  fields_used : List String
  reason : String

/-- First-match association lookup (Python dict access by key). -/
def assocFind {κ α : Type} [DecidableEq κ] : List (κ × α) → κ → Option α
  | [], _ => none
  | (k, v) :: rest, key => if k = key then some v else assocFind rest key

/-- The detector's mutable state: the in-memory model cache `self._models`
and the on-disk joblib store (`_load` succeeds exactly when the store has an
entry for the organisation; an unreadable file is the same as an absent
one, since `_load` returns `False` on any exception). -/
structure DetectorState where
  models : List (String × ModelEntry)
  store : List (String × ModelEntry)

/-- `MLAnomalyDetector.is_trained`. -/
def DetectorState.is_trained (st : DetectorState) (org_id : String) : Bool :=
  (assocFind st.models org_id).isSome

/-- `MLAnomalyDetector._vectorize` on a single sample: dot-path extraction of
each field, `float` coercion, NaN for missing/non-numeric cells. With one row
the column mean of a NaN cell is NaN, so the NaN-imputation step replaces it
with 0. -/
def vectorizeOne (sample : Value) (fields : List String) : List ℚ :=
  fields.map fun f =>
    match pyFloat (get_nested_value sample f) with
    | some q => q
    | none => 0

/-- The trained-model branch of `score` (the final `round(raw, 4)` of the
source is not modelled; scores stay exact). -/
def scoreWithEntry (org_id : String) (sample : Value) (severity : String)
    (entry : ModelEntry) : MLAnomalyScore :=
  let trained_fields := entry.fields
  let raw := entry.model (vectorizeOne sample trained_fields)
  let anomaly := decide (raw < 0)
  { org_id := org_id, is_anomaly := anomaly, raw_score := raw, severity := severity,
    fields_used := trained_fields,
    reason := "IsolationForest score: " ++ qToString raw ++ " — "
      ++ (if anomaly then "ANOMALY detected (score < 0)" else "normal (score >= 0)")
      ++ ". Fields: [" ++ String.intercalate ", " trained_fields ++ "]." }

/-- `MLAnomalyDetector.score`: in-memory model, else lazy `_load` from the
store, else the structured "not trained" result — never an exception. (On a
successful lazy load the source also caches the entry in `self._models`;
that write is not observable through `score`'s result.) -/
def MLAnomalyDetector.score (st : DetectorState) (org_id : String) (sample : Value)
    (fields : List String) (severity : String) : MLAnomalyScore :=
  match assocFind st.models org_id with
  | some entry => scoreWithEntry org_id sample severity entry
  | none =>
    match assocFind st.store org_id with
    | some entry => scoreWithEntry org_id sample severity entry
    | none =>
        { org_id := org_id, is_anomaly := false, raw_score := 0, severity := severity,
          fields_used := fields,
          reason := "Model not trained yet — need more historical data." }

/-! ## `RuleEngine._validate_anomaly_ml` -/

/-- A request context: a Python dict. -/
abbrev Context := List (String × Value)

/-- The fields `_validate_anomaly_ml` reads off an `anomaly_ml` rule dict. -/
structure AnomalyMLRule where
  fields : List String := []
  org_id? : Option Value := none
  name? : Option String := none
  severity? : Option String := none
  min_samples? : Option Value := none

/-- Resolution of the organisation id: the rule's `org_id` if truthy, else —
when a truthy context was supplied — `context.get("org_id") or
context.get("organization_id")`. -/
def resolveOrgId (org_id? : Option Value) (ctx? : Option Context) : Value :=
  let o := org_id?.getD .null
  if pyTruthy o then o
  else
    match ctx? with
    | some c =>
        if c ≠ [] then
          let v1 := dictGet c "org_id"
          if pyTruthy v1 then v1 else dictGet c "organization_id"
        else o
    | none => o

/-- `RuleEngine._validate_anomaly_ml`. Dictionary keys of the model registry
are the organisation-id strings (`pyStr` of the resolved value; the resolved
value is a string in every caller). -/
def validateAnomalyML (st : DetectorState) (output : Value) (rule : AnomalyMLRule)
    (ctx? : Option Context) : List Violation :=
  let severity := rule.severity?.getD "warning"
  let rule_name := rule.name?.getD "anomaly_ml_check"
  let org := resolveOrgId rule.org_id? ctx?
  if ¬ pyTruthy org then
    [{ rule_name := rule_name, violation_type := .statistical, field := "*",
       message := "anomaly_ml rule requires \x27org_id\x27 in the rule or context "
         ++ "(e.g. context=...)",
       severity := "warning", found_value := .null }]
  else if rule.fields = [] then
    [{ rule_name := rule_name, violation_type := .statistical, field := "*",
       message := "anomaly_ml rule must specify \x27fields\x27 — list of numeric fields to monitor",
       severity := "warning", found_value := .null }]
  else
    let key := pyStr org
    if st.is_trained key ∨ (assocFind st.store key).isSome then
      let result := MLAnomalyDetector.score st key output rule.fields severity
      if result.is_anomaly then
        [{ rule_name := rule_name, violation_type := .statistical,
           field := String.intercalate ", " rule.fields,
           message := "ML anomaly detected for org=\x27" ++ key ++ "\x27: " ++ result.reason,
           severity := severity,
           found_value := .obj (rule.fields.map fun f => (f, get_nested_value output f)),
           expected_value := some (.str ("Normal range learned from historical data "
             ++ "(IF score >= 0, got " ++ qToString result.raw_score ++ ")")),
           suggestion := some ("This output pattern deviates significantly from historical "
             ++ "norms — review for hallucination.") }]
      else []
    else
      [{ rule_name := rule_name, violation_type := .statistical, field := "*",
         message := "IsolationForest model not yet trained for org=\x27" ++ key
           ++ "\x27. Call MLAnomalyDetector.train() after collecting "
           ++ pyStr (rule.min_samples?.getD (.num 50)) ++ "+ records.",
         severity := "warning", found_value := .null }]

/-! ## `ExternalReferenceValidator.check` (`backend/core/external_reference.py`) -/

/-- `ConnectorResult` dataclass (`exists` is a Lean keyword, hence the
underscore; `latency_ms` is wall-clock time, which the model keeps at the
value `check` computes for instantaneous connectors, namely 0). -/
structure ConnectorResult where
  exists_ : Bool
  detail : String := ""
  latency_ms : ℕ := 0
  raw : Option Value := none
  deriving DecidableEq, Repr

/-- The observable behaviour of one awaited connector call. -/
inductive ConnectorBehavior where
  | returns (r : ConnectorResult)
  | timeout
  | raises (msg : String)

/-- The registry `ExternalReferenceValidator._connectors`: connector name to
async callable. -/
abbrev ConnectorRegistry := List (String × (Value → Context → ConnectorBehavior))

/-- `ExternalReferenceValidator.check`. An unregistered name raises
`KeyError` (modelled as `Except.error`); for a registered connector, a raised
exception or an `httpx` timeout is converted into `exists=False` with an
explanatory detail, so the call returns normally. -/
def ExternalReferenceValidator.check (reg : ConnectorRegistry) (connector_name : String)
    (value : Value) (params? : Option Context) (timeout : ℚ) :
    Except String ConnectorResult :=
  match assocFind reg connector_name with
  | none =>
      .error ("Connector \x27" ++ connector_name ++ "\x27 is not registered.")
  | some connector =>
      let params := params?.getD []
      match connector value params with
      | .returns r => .ok { r with latency_ms := 0 }
      | .timeout =>
          .ok { exists_ := false,
                detail := "Connector \x27" ++ connector_name ++ "\x27 timed out after "
                  ++ qToString timeout ++ "s" }
      | .raises msg =>
          .ok { exists_ := false,
                detail := "Connector \x27" ++ connector_name ++ "\x27 error: " ++ msg }

/-! ## `ConfidenceScorer` (`backend/core/confidence_scorer.py`)

The scorer computes with Python floats through `math.exp`; the model uses the
real numbers, which is why this section alone is noncomputable. -/

/-- The slice of `ValidationResult` that `calculate_confidence` reads. -/
structure VResult where
  violations : List Violation
  auto_corrected : Bool
  corrections_applied : Option (List String) := none

/-- `ConfidenceFactors` pydantic model. -/
structure ConfidenceFactors where
  violation_count : ℝ
  severity_score : ℝ
  auto_correction_penalty : ℝ
  statistical_confidence : ℝ
  reference_confidence : ℝ
  overall_confidence : ℝ

namespace ConfidenceScorer

/-- `ConfidenceScorer._calculate_violation_score`: 1.0 on the empty list,
otherwise the exponential decay `e^(-violations/3)`. -/
noncomputable def calculate_violation_score (violations : List Violation) : ℝ :=
  if violations = [] then 1 else Real.exp (-(violations.length : ℝ) / 3)

/-- `severity_weights.get(v.severity, 0.5)`. -/
noncomputable def severityWeight (severity : String) : ℝ :=
  if severity = "error" then 1.0
  else if severity = "warning" then 0.5
  else if severity = "info" then 0.1
  else 0.5

/-- `ConfidenceScorer._calculate_severity_score`. -/
noncomputable def calculate_severity_score (violations : List Violation) : ℝ :=
  if violations = [] then 1
  else
    let total := (violations.map fun v => severityWeight v.severity).sum
    let maxSeverity := (violations.length : ℝ) * 1.0
    if maxSeverity = 0 then 1 else 1 - min (total / maxSeverity) 1

/-- `ConfidenceScorer._calculate_auto_correction_penalty`. -/
noncomputable def calculate_auto_correction_penalty (auto_corrected : Bool)
    (corrections : Option (List String)) : ℝ :=
  if ¬ auto_corrected ∨ corrections = none ∨ corrections = some [] then 0
  else min ((corrections.getD []).length * 0.1) 0.5

/-- `ConfidenceScorer.calculate_confidence`: the five sub-scores and the
clamped weighted blend. -/
noncomputable def calculate_confidence (result : VResult) (statistical_score : Option ℝ)
    (has_reference_violations : Bool) : ConfidenceFactors :=
  let violation_score := calculate_violation_score result.violations
  let severity_score := calculate_severity_score result.violations
  let auto_correction_penalty :=
    calculate_auto_correction_penalty result.auto_corrected result.corrections_applied
  let statistical_confidence := statistical_score.getD 1.0
  let reference_confidence : ℝ := if has_reference_violations then 0.0 else 1.0
  let overall :=
    violation_score * 0.30 + severity_score * 0.25
      + (1.0 - auto_correction_penalty) * 0.15
      + statistical_confidence * 0.20 + reference_confidence * 0.10
  { violation_count := violation_score, severity_score := severity_score,
    auto_correction_penalty := auto_correction_penalty,
    statistical_confidence := statistical_confidence,
    reference_confidence := reference_confidence,
    overall_confidence := max 0.0 (min 1.0 overall) }

open Classical in
/-- `ConfidenceScorer.get_confidence_level`. -/
noncomputable def get_confidence_level (confidence : ℝ) : String :=
  if 0.9 ≤ confidence then "very_high"
  else if 0.75 ≤ confidence then "high"
  else if 0.5 ≤ confidence then "medium"
  else if 0.25 ≤ confidence then "low"
  else "very_low"

end ConfidenceScorer

/-! ## A heap model of Python objects

`AutoCorrector.fix` (`backend/core/auto_corrector.py`) works by in-place
mutation of dicts reached from a `deepcopy` of its input. To make the
cloning discipline provable, documents are placed on an explicit heap:
dicts and lists are heap nodes addressed by `ℕ`, mutation is a store update,
and `copy.deepcopy` allocates a fresh isomorphic subgraph. -/

/-- Immutable Python scalars. -/
inductive Scalar where
  | null
  | bool (b : Bool)
  | num (q : ℚ)
  | str (s : String)
  deriving DecidableEq, Repr

/-- One heap object: a scalar, a dict of named references, or a list of
references. -/
inductive HNode where
  | scalar (s : Scalar)
  | dict (fields : List (String × ℕ))
  | arr (elems : List ℕ)
  deriving DecidableEq, Repr

/-- The addresses a node refers to. -/
def HNode.children : HNode → List ℕ
  | .scalar _ => []
  | .dict fs => fs.map Prod.snd
  | .arr as => as

/-- The object store: a bump allocator plus a journal of writes (the most
recent write to an address wins). -/
structure Heap where
  next : ℕ
  mem : List (ℕ × HNode)
  deriving DecidableEq, Repr

/-- Dereference. -/
def Heap.lookup (h : Heap) (a : ℕ) : Option HNode :=
  assocFind h.mem a

/-- In-place mutation of the object at `a`. -/
def Heap.set (h : Heap) (a : ℕ) (n : HNode) : Heap :=
  ⟨h.next, (a, n) :: h.mem⟩

/-- Allocation of a fresh object. -/
def Heap.alloc (h : Heap) (n : HNode) : Heap × ℕ :=
  (⟨h.next + 1, (h.next, n) :: h.mem⟩, h.next)

/-- The heap with no objects. -/
def emptyHeap : Heap := ⟨0, []⟩

/-- Scalars as document values. -/
def scalarToValue : Scalar → Value
  | .null => .null
  | .bool b => .bool b
  | .num q => .num q
  | .str s => .str s

mutual

/-- Materialise a document tree on the heap (children first, then the node),
returning the new heap and the root address. -/
def allocValue : Value → Heap → Heap × ℕ
  | .null, h => h.alloc (.scalar .null)
  | .bool b, h => h.alloc (.scalar (.bool b))
  | .num q, h => h.alloc (.scalar (.num q))
  | .str s, h => h.alloc (.scalar (.str s))
  | .arr xs, h => (allocList xs h).1.alloc (.arr (allocList xs h).2)
  | .obj fs, h => (allocFields fs h).1.alloc (.dict (allocFields fs h).2)

def allocList : List Value → Heap → Heap × List ℕ
  | [], h => (h, [])
  | v :: rest, h =>
      ((allocList rest (allocValue v h).1).1,
        (allocValue v h).2 :: (allocList rest (allocValue v h).1).2)

def allocFields : List (String × Value) → Heap → Heap × List (String × ℕ)
  | [], h => (h, [])
  | (k, v) :: rest, h =>
      ((allocFields rest (allocValue v h).1).1,
        (k, (allocValue v h).2) :: (allocFields rest (allocValue v h).1).2)

end

/-- Fuelled readout of the tree rooted at an address; `none` on a dangling
reference or fuel exhaustion (the heaps built here are acyclic, so a fuel of
`h.next + 1` always suffices). -/
def readN : ℕ → Heap → ℕ → Option Value
  | 0, _, _ => none
  | fuel + 1, h, a =>
    match h.lookup a with
    | some (.scalar s) => some (scalarToValue s)
    | some (.dict ps) =>
        (ps.mapM fun p => (readN fuel h p.2).map fun v => (p.1, v)).map .obj
    | some (.arr as) => (as.mapM fun b => readN fuel h b).map .arr
    | none => none

/-- `copy.deepcopy`: read the tree out and rebuild it from fresh addresses.
Observationally this is exactly Python's deep copy of an (acyclic) document.
The fallback branch is unreachable on the well-formed heaps built below. -/
def deepcopyH (h : Heap) (a : ℕ) : Heap × ℕ :=
  match readN (h.next + 1) h a with
  | some v => allocValue v h
  | none => h.alloc (.scalar .null)

/-- Python dict assignment `d[k] = a`: replace in place, else append. -/
def dictSetN : List (String × ℕ) → String → ℕ → List (String × ℕ)
  | [], key, a => [(key, a)]
  | (k, v) :: rest, key, a =>
      if k = key then (k, a) :: rest else (k, v) :: dictSetN rest key a

/-- `_get_field_value(data, field)` over the heap: dot-path descent through
dict nodes only, `none` for Python `None`. (A stored `None` comes back as the
address of a `null` scalar; callers test the node.) -/
def getFieldH (h : Heap) : ℕ → List String → Option ℕ
  | a, [] => some a
  | a, k :: rest =>
    match h.lookup a with
    | some (.dict fs) =>
      match assocFind fs k with
      | some b => getFieldH h b rest
      | none => none
    | _ => none

/-- `_set_field_value(data, field, value)` over the heap: walk the path,
creating empty dicts for missing intermediate keys; mutate the final dict.
`false` is the `TypeError` Python raises when a non-dict is met on the path
(mutations made before the raise persist, as they do in Python). -/
def setFieldH : Heap → ℕ → List String → ℕ → Heap × Bool
  | h, _, [], _ => (h, false)
  | h, a, [k], va =>
    match h.lookup a with
    | some (.dict fs) => (h.set a (.dict (dictSetN fs k va)), true)
    | _ => (h, false)
  | h, a, k :: k2 :: rest, va =>
    match h.lookup a with
    | some (.dict fs) =>
      match assocFind fs k with
      | some b => setFieldH h b (k2 :: rest) va
      | none =>
        setFieldH
          ((h.alloc (.dict [])).1.set a (.dict (dictSetN fs k (h.alloc (.dict [])).2)))
          (h.alloc (.dict [])).2 (k2 :: rest) va
    | _ => (h, false)

/-! ## The correction strategies (`backend/core/auto_corrector.py`)

`RangeClampingStrategy`, `TypeCoercionStrategy` and `StringTrimStrategy` are
embedded from the source. `FuzzyMatchStrategy` and `DefaultValueStrategy` are
imported by `test_gap4_autocorrector.py` and referenced by the rule engine's
doc comments, but their definitions are absent from the source tree; they are
modelled from the spec where marked. -/

/-- The closed set of correction strategies. -/
inductive Strategy where
  | rangeClamping
  | typeCoercion
  | stringTrim
  | fuzzyMatch
  | defaultValue
  deriving DecidableEq, Repr

/-- Does the violation's `expected_value` hint carry the given dict key? -/
def hintHasKey (v : Violation) (k : String) : Bool :=
  match v.expected_value with
  | some (.obj fs) => (assocFind fs k).isSome
  | _ => false

/-- Rendering of a heap scalar for fix descriptions. -/
def scalarStr : Scalar → String
  | .null => "None"
  | .bool b => if b then "True" else "False"
  | .num q => qToString q
  | .str s => s

/-- A run of whitespace, split off the front. -/
def spanSpaces (cs : List Char) : List Char × List Char :=
  (cs.takeWhile isPySpace, cs.dropWhile isPySpace)

/-- One number token of the `_extract_range` regular expression,
`-?\d+\.?\d*`, parsed off the front of the input. -/
def parseNumTok (cs : List Char) : Option (ℚ × List Char) :=
  let (negSign, cs1) : Bool × List Char :=
    match cs with
    | '-' :: r => (true, r)
    | _ => (false, cs)
  let (ip, r1) := spanDigits cs1
  if ip = [] then none
  else
    match r1 with
    | '.' :: r2 =>
      let (fp, r3) := spanDigits r2
      let q : ℚ := (digitsToNat ip : ℚ) + (digitsToNat fp : ℚ) / ((10 : ℚ) ^ fp.length)
      some (if negSign then -q else q, r3)
    | _ =>
      let q : ℚ := (digitsToNat ip : ℚ)
      some (if negSign then -q else q, r1)

/-- An occurrence of `between\s+(-?\d+\.?\d*)\s+and\s+(-?\d+\.?\d*)` starting
at the head of the input. -/
def tryBetween (cs : List Char) : Option (ℚ × ℚ) :=
  if "between".toList.isPrefixOf cs then
    let r0 := cs.drop 7
    let (sp1, r1) := spanSpaces r0
    if sp1 = [] then none
    else
      match parseNumTok r1 with
      | none => none
      | some (m, r2) =>
        let (sp2, r3) := spanSpaces r2
        if sp2 = [] then none
        else if "and".toList.isPrefixOf r3 then
          let (sp3, r5) := spanSpaces (r3.drop 3)
          if sp3 = [] then none
          else (parseNumTok r5).map fun p => (m, p.1)
        else none
  else none

/-- `re.findall(r'between\s+(-?\d+\.?\d*)\s+and\s+(-?\d+\.?\d*)', message)`,
first match. -/
def findBetween : List Char → Option (ℚ × ℚ)
  | [] => none
  | c :: rest =>
    match tryBetween (c :: rest) with
    | some r => some r
    | none => findBetween rest

/-- `RangeClampingStrategy._extract_range`: the message regular expression
first, then a `{min, max}` `expected_value` dict. `Except.error` is the
`float()` exception a non-numeric dict entry raises (it propagates out of the
strategy); the regular-expression path always coerces. -/
def extractRange (v : Violation) : Except Unit (Option (ℚ × ℚ)) :=
  match findBetween v.message.toList with
  | some r => .ok (some r)
  | none =>
    match v.expected_value with
    | some (.obj fs) =>
      match assocFind fs "min", assocFind fs "max" with
      | some mv, some Mv =>
        if mv = .null ∨ Mv = .null then .ok none
        else
          match pyFloat mv, pyFloat Mv with
          | some m, some M => .ok (some (m, M))
          | _, _ => .error ()
      | _, _ => .ok none
    | _ => .ok none

/-- The shared tail of `RangeClampingStrategy.fix` once a numeric current
value has been read: allocate the clamped scalar and write it into the copy. -/
def clampAndSet (h : Heap) (out corrected : ℕ) (field : String) (curStr : String)
    (minv maxv q : ℚ) : Heap × Option (ℕ × String) :=
  let clamped := max minv (min maxv q)
  let h1 := (h.alloc (.scalar (.num clamped))).1
  let va := (h.alloc (.scalar (.num clamped))).2
  match setFieldH h1 corrected (splitPath field) va with
  | (h2, true) =>
      (h2, some (corrected, "Clamped " ++ field ++ " from " ++ curStr
        ++ " to " ++ qToString clamped ++ " (range: " ++ qToString minv ++ "-"
        ++ qToString maxv ++ ")"))
  | (h2, false) => (h2, none)

/-- `RangeClampingStrategy.fix`. -/
def fixRangeClamping (h0 : Heap) (out : ℕ) (viol : Violation) :
    Heap × Option (ℕ × String) :=
  let h := (deepcopyH h0 out).1
  let corrected := (deepcopyH h0 out).2
  match extractRange viol with
  | .error _ => (h, none)
  | .ok none => (h, some (out, "Could not auto-correct range violation"))
  | .ok (some (minv, maxv)) =>
    match getFieldH h out (splitPath viol.field) with
    | none => (h, some (out, "Could not auto-correct range violation"))
    | some cur =>
      match h.lookup cur with
      | some (.scalar .null) => (h, some (out, "Could not auto-correct range violation"))
      | some (.scalar (.num q)) =>
          clampAndSet h out corrected viol.field (qToString q) minv maxv q
      | some (.scalar (.bool b)) =>
          clampAndSet h out corrected viol.field (scalarStr (.bool b)) minv maxv
            (if b then 1 else 0)
      | _ => (h, none)

/-- `TypeCoercionStrategy._extract_expected_type`: the `if/elif` substring
chain over the lowered message. -/
def extract_expected_type (viol : Violation) : Option String :=
  let message := pyLower viol.message
  if pyContains message "integer" || pyContains message "int" then some "integer"
  else if pyContains message "number" || pyContains message "float" then some "number"
  else if pyContains message "string" || pyContains message "str" then some "string"
  else if pyContains message "boolean" || pyContains message "bool" then some "boolean"
  else if pyContains message "array" || pyContains message "list" then some "array"
  else if pyContains message "object" || pyContains message "dict" then some "object"
  else none

/-- `float(value)` applied to a heap node. -/
def coerceNodeFloat : Option HNode → Except String ℚ
  | some (.scalar (.num q)) => .ok q
  | some (.scalar (.bool b)) => .ok (if b then 1 else 0)
  | some (.scalar (.str s)) =>
    match parsePyFloat s with
    | some q => .ok q
    | none => .error ("could not convert string to float: " ++ s)
  | _ => .error "float() argument must be a string or a real number"

/-- Python `int()` truncation toward zero of an exact rational. -/
def ratTrunc (q : ℚ) : ℤ :=
  if q < 0 then -(((-q).num.toNat / q.den : ℕ) : ℤ) else ((q.num.toNat / q.den : ℕ) : ℤ)

/-- Python type name of a heap node, for fix descriptions (`int` vs `float`
is not distinguished by the rational model; no theorem depends on it). -/
def nodeTypeName : Option HNode → String
  | some (.scalar .null) => "NoneType"
  | some (.scalar (.bool _)) => "bool"
  | some (.scalar (.num _)) => "float"
  | some (.scalar (.str _)) => "str"
  | some (.dict _) => "dict"
  | some (.arr _) => "list"
  | none => "NoneType"

/-- `bool(value)` of a heap node. -/
def nodeTruthy : HNode → Bool
  | .scalar .null => false
  | .scalar (.bool b) => b
  | .scalar (.num q) => q != 0
  | .scalar (.str s) => s ≠ ""
  | .dict fs => fs ≠ []
  | .arr as => as ≠ []

/-- `str(value)` of a heap node (containers are rendered shallowly; the
result only feeds fix descriptions and the `"string"` coercion target, and no
theorem below inspects a container rendering). -/
def nodeStr : HNode → String
  | .scalar s => scalarStr s
  | .dict _ => "\x7b" ++ "...\x7d"
  | .arr _ => "[...]"

/-- `TypeCoercionStrategy._coerce_type` over the heap. The `"array"` and
`"object"` targets return the value itself when it already has the target
shape — the same aliasing the Python code produces. -/
def coerceH (h : Heap) (cur : ℕ) : String → Except String (Heap × ℕ)
  | "integer" => do
      let q ← coerceNodeFloat (h.lookup cur)
      .ok (h.alloc (.scalar (.num (ratTrunc q))))
  | "number" => do
      let q ← coerceNodeFloat (h.lookup cur)
      .ok (h.alloc (.scalar (.num q)))
  | "string" =>
      .ok (h.alloc (.scalar (.str (nodeStr ((h.lookup cur).getD (.scalar .null))))))
  | "boolean" =>
      match h.lookup cur with
      | some (.scalar (.str s)) =>
          .ok (h.alloc (.scalar (.bool (pyLower s = "true" ∨ pyLower s = "yes" ∨ pyLower s = "1"))))
      | some n => .ok (h.alloc (.scalar (.bool (nodeTruthy n))))
      | none => .ok (h.alloc (.scalar (.bool false)))
  | "array" =>
      match h.lookup cur with
      | some (.arr _) => .ok (h, cur)
      | _ => .ok (h.alloc (.arr [cur]))
  | "object" =>
      match h.lookup cur with
      | some (.dict _) => .ok (h, cur)
      | _ => .ok (h.alloc (.dict [("value", cur)]))
  | _ => .ok (h, cur)

/-- `TypeCoercionStrategy.fix`. A coercion or set-field error is caught by
the strategy's own `try` and reported as a "could not coerce" description;
the strategy never raises. -/
def fixTypeCoercion (h0 : Heap) (out : ℕ) (viol : Violation) :
    Heap × Option (ℕ × String) :=
  let h := (deepcopyH h0 out).1
  let corrected := (deepcopyH h0 out).2
  match extract_expected_type viol with
  | none => (h, some (out, "Could not determine expected type"))
  | some target =>
    let path := splitPath viol.field
    let h1 := match getFieldH h out path with
      | some _ => h
      | none => (h.alloc (.scalar .null)).1
    let cur := match getFieldH h out path with
      | some a => a
      | none => (h.alloc (.scalar .null)).2
    let curTy := nodeTypeName (h1.lookup cur)
    match coerceH h1 cur target with
    | .error e => (h1, some (out, "Could not coerce type: " ++ e))
    | .ok (h2, va) =>
      match setFieldH h2 corrected path va with
      | (h3, true) =>
          (h3, some (corrected, "Coerced " ++ viol.field ++ " from " ++ curTy
            ++ " to " ++ target))
      | (h3, false) => (h3, some (out, "Could not coerce type: TypeError"))

/-- `StringTrimStrategy.fix`. A set-field `TypeError` here is outside the
strategy's `try`, so it propagates (`none`). -/
def fixStringTrim (h0 : Heap) (out : ℕ) (viol : Violation) :
    Heap × Option (ℕ × String) :=
  let h := (deepcopyH h0 out).1
  let corrected := (deepcopyH h0 out).2
  let path := splitPath viol.field
  match getFieldH h out path with
  | some cur =>
    match h.lookup cur with
    | some (.scalar (.str s)) =>
      (match setFieldH (h.alloc (.scalar (.str (pyStrip s)))).1 corrected path
          (h.alloc (.scalar (.str (pyStrip s)))).2 with
       | (h2, true) => (h2, some (corrected, "Trimmed whitespace from " ++ viol.field))
       | (h2, false) => (h2, none))
    | _ => (h, some (out, "Value is not a string"))
  | none => (h, some (out, "Value is not a string"))

/-! ### Ratcliff–Obershelp similarity (for the spec-modelled fuzzy matching)

`difflib.SequenceMatcher.ratio()`: twice the total length of the matching
blocks over the total length, where blocks are found by recursively taking
the leftmost longest common substring. -/

/-- Length of the common prefix. -/
def commonRun : List Char → List Char → ℕ
  | a :: as, b :: bs => if a = b then 1 + commonRun as bs else 0
  | _, _ => 0

/-- Best match of `sa` against all suffixes of `b`: `(j, k)` with smallest
`j` among the longest. -/
def bestJ (sa : List Char) : List Char → ℕ → ℕ × ℕ
  | [], j0 => (j0, 0)
  | c :: rest, j0 =>
    let k := commonRun sa (c :: rest)
    let (j', k') := bestJ sa rest (j0 + 1)
    if k' > k then (j', k') else (j0, k)

/-- Leftmost longest common substring `(i, j, k)` of two strings. -/
def longestMatch (a b : List Char) : ℕ × ℕ × ℕ :=
  go a 0
where
  go : List Char → ℕ → ℕ × ℕ × ℕ
    | [], i0 => (i0, 0, 0)
    | sa@(_ :: rest), i0 =>
      let (j, k) := bestJ sa b 0
      let (i', j', k') := go rest (i0 + 1)
      if k' > k then (i', j', k') else (i0, j, k)

/-- Total matched length (fuelled; a fuel of `a.length + b.length + 1` always
suffices since every recursion strictly shrinks the pieces). -/
def matchTotal : ℕ → List Char → List Char → ℕ
  | 0, _, _ => 0
  | fuel + 1, a, b =>
    let (i, j, k) := longestMatch a b
    if k = 0 then 0
    else
      matchTotal fuel (a.take i) (b.take j) + k
        + matchTotal fuel (a.drop (i + k)) (b.drop (j + k))

/-- Total matched length `M` of the Ratcliff–Obershelp decomposition. -/
def simTotal (a b : List Char) : ℕ :=
  matchTotal (a.length + b.length + 1) a b

/-- The similarity ratio `2M / (|a| + |b|)` as an exact pair
`(numerator, denominator)`; `difflib` defines the ratio of two empty strings
to be 1. -/
def ratioPair (a b : List Char) : ℕ × ℕ :=
  if a.length + b.length = 0 then (1, 1) else (2 * simTotal a b, a.length + b.length)

/-- `p ≥ q` as fractions (denominators are positive by construction). -/
def ratioGe (p q : ℕ × ℕ) : Bool :=
  p.1 * q.2 ≥ q.1 * p.2

/-- Best option by similarity to the found string, first-wins on ties. -/
def fuzzyBest (found : List Char) : List Value → Option (Value × (ℕ × ℕ))
  | [] => none
  | o :: rest =>
    let p := ratioPair found (pyStr o).toList
    match fuzzyBest found rest with
    | some (o', p') => if ratioGe p' p ∧ ¬ ratioGe p p' then some (o', p') else some (o, p)
    | none => some (o, p)

/-- Modelled from the spec: `FuzzyMatchStrategy.fix` — the class is imported
by `test_gap4_autocorrector.py` from `backend.core.auto_corrector` but its
definition is missing from the source tree. Per §4.2 it "computes a
string-similarity distance between the found value and each option,
substitutes the closest option if its similarity clears a fixed acceptance
threshold, otherwise leaves the violation unfixed"; the similarity is
`difflib`'s ratio (per the test summary) with its standard cutoff 0.6, and
"leaves unfixed" is a strategy failure, which §4.2 says the engine treats as
"could not fix". -/
def fixFuzzyMatch (h0 : Heap) (out : ℕ) (viol : Violation) :
    Heap × Option (ℕ × String) :=
  let h := (deepcopyH h0 out).1
  let corrected := (deepcopyH h0 out).2
  let found := (pyStr viol.found_value).toList
  let options : List Value :=
    match viol.expected_value with
    | some (.obj fs) =>
      match assocFind fs "valid_options" with
      | some (.arr opts) => opts
      | _ => []
    | _ => []
  match fuzzyBest found options with
  | none => (h, none)
  | some (best, p) =>
    if ratioGe p (3, 5) then
      match setFieldH (allocValue best h).1 corrected (splitPath viol.field)
          (allocValue best h).2 with
      | (h2, true) =>
          (h2, some (corrected, "Fuzzy-matched " ++ viol.field ++ " to \x27"
            ++ pyStr best ++ "\x27"))
      | (h2, false) => (h2, none)
    else (h, none)

/-- Modelled from the spec: `DefaultValueStrategy.fix` — the class is
imported by `test_gap4_autocorrector.py` from `backend.core.auto_corrector`
but its definition is missing from the source tree. Per §4.2 it "applies when
the hint carries `{default_value}`; fills the missing/null field with it". -/
def fixDefaultValue (h0 : Heap) (out : ℕ) (viol : Violation) :
    Heap × Option (ℕ × String) :=
  let h := (deepcopyH h0 out).1
  let corrected := (deepcopyH h0 out).2
  match viol.expected_value with
  | some (.obj fs) =>
    match assocFind fs "default_value" with
    | some dv =>
      (match setFieldH (allocValue dv h).1 corrected (splitPath viol.field)
          (allocValue dv h).2 with
       | (h2, true) =>
           (h2, some (corrected, "Filled missing field \x27" ++ viol.field
             ++ "\x27 with default \x27" ++ pyStr dv ++ "\x27"))
       | (h2, false) => (h2, none))
    | none => (h, none)
  | _ => (h, none)

/-- `can_fix` of each strategy. The fuzzy/default predicates are the spec's
"applies when the hint carries `{valid_options}` / `{default_value}`". -/
def Strategy.canFix : Strategy → Violation → Bool
  | .rangeClamping, v =>
      pyContains (pyLower v.rule_name) "range" || pyContains (pyLower v.message) "must be between"
  | .typeCoercion, v =>
      decide (v.violation_type = .schema) && pyContains (pyLower v.message) "type"
  | .stringTrim, v =>
      pyContains (pyLower v.message) "whitespace" || pyContains (pyLower v.message) "trim"
  | .fuzzyMatch, v => hintHasKey v "valid_options"
  | .defaultValue, v => hintHasKey v "default_value"

/-- `strategy.fix(corrected, violation)`: `none` is a raised exception, which
`AutoCorrector.fix` catches before moving to the next strategy. -/
def Strategy.applyFix : Strategy → Heap → ℕ → Violation → Heap × Option (ℕ × String)
  | .rangeClamping, h, out, v => fixRangeClamping h out v
  | .typeCoercion, h, out, v => fixTypeCoercion h out v
  | .stringTrim, h, out, v => fixStringTrim h out v
  | .fuzzyMatch, h, out, v => fixFuzzyMatch h out v
  | .defaultValue, h, out, v => fixDefaultValue h out v

/-- The strategy list of `AutoCorrector.__init__` as it stands in the source
tree: range clamping, type coercion, string trimming. -/
def srcStrategies : List Strategy :=
  [.rangeClamping, .typeCoercion, .stringTrim]

/-- Modelled from the spec: the strategy chain of §4.2 — the source
registration lacks the missing `FuzzyMatchStrategy`/`DefaultValueStrategy`
classes; the spec's fixed priority order appends them after the three
source strategies. -/
def specStrategies : List Strategy :=
  [.rangeClamping, .typeCoercion, .stringTrim, .fuzzyMatch, .defaultValue]

/-- The inner `for strategy in self.strategies` loop of `AutoCorrector.fix`
for one violation: skip strategies whose `can_fix` is false, return the first
successful fix, continue past a raising strategy. -/
def stratLoop : List Strategy → Heap → ℕ → Violation → Heap × Option (ℕ × String)
  | [], h, _, _ => (h, none)
  | s :: rest, h, corrected, v =>
    if s.canFix v then
      match s.applyFix h corrected v with
      | (h', some r) => (h', some r)
      | (h', none) => stratLoop rest h' corrected v
    else stratLoop rest h corrected v

/-- The outer violation loop of `AutoCorrector.fix`: only `error`-severity
violations are attempted; a successful fix rebinds the working copy and
records its description. Returns the final heap, working root, descriptions,
and the fixed-violation count. -/
def fixLoop (strats : List Strategy) :
    Heap → ℕ → List Violation → List String → ℕ → Heap × ℕ × List String × ℕ
  | h, corrected, [], fixes, count => (h, corrected, fixes, count)
  | h, corrected, v :: rest, fixes, count =>
    if v.severity ≠ "error" then fixLoop strats h corrected rest fixes count
    else
      match stratLoop strats h corrected v with
      | (h', some (a, d)) => fixLoop strats h' a rest (fixes ++ [d]) (count + 1)
      | (h', none) => fixLoop strats h' corrected rest fixes count

/-- `AutoCorrector.fix(output, violations, context)` over the heap: the
guard `if context and not context.get("auto_correct", False)` (a `None` or
empty context does NOT block), one deep copy of the caller's document, the
violation loop, and a corrected root only if at least one fix succeeded. -/
def AutoCorrector.fix (strats : List Strategy) (h : Heap) (output : ℕ)
    (violations : List Violation) (ctx? : Option Context) :
    Heap × Option ℕ × List String :=
  let blocked : Bool :=
    match ctx? with
    | some c => c ≠ [] && !(pyTruthy (dictGetD c "auto_correct" (.bool false)))
    | none => false
  if blocked then (h, none, [])
  else
    let (h1, corrected) := deepcopyH h output
    match fixLoop strats h1 corrected violations [] 0 with
    | (h2, correctedFinal, fixes, count) =>
      if count > 0 then (h2, some correctedFinal, fixes) else (h2, none, [])

/-- Readout of an optional corrected root with always-sufficient fuel. -/
def readRoot (h : Heap) (a? : Option ℕ) : Option Value :=
  match a? with
  | some a => readN (h.next + 1) h a
  | none => none

/-- The context `{auto_correct: true}`. -/
def autoCorrectCtx : Context := [("auto_correct", .bool true)]

example :
    readRoot
      (AutoCorrector.fix srcStrategies (allocValue hoursDoc emptyHeap).1
        (allocValue hoursDoc emptyHeap).2 [hoursViolation] (some autoCorrectCtx)).1
      (AutoCorrector.fix srcStrategies (allocValue hoursDoc emptyHeap).1
        (allocValue hoursDoc emptyHeap).2 [hoursViolation] (some autoCorrectCtx)).2.1
    = some (.obj [("hours", .num 24)]) := by decide

/-- The `fiqh_school` enum rule of the spec's testable property. -/
def fiqhRule : EnumRule :=
  { field? := some "fiqh_school",
    valid_options := [.str "Hanafi", .str "Jafaria", .str "Shafi", .str "Maliki", .str "Hanbali"] }

example :
    (validateEnum (.obj [("fiqh_school", .str "Hanafy")]) fiqhRule).length = 1 := by decide

example :
    readRoot
      (AutoCorrector.fix specStrategies
        (allocValue (.obj [("fiqh_school", .str "Hanafy")]) emptyHeap).1
        (allocValue (.obj [("fiqh_school", .str "Hanafy")]) emptyHeap).2
        (validateEnum (.obj [("fiqh_school", .str "Hanafy")]) fiqhRule)
        (some autoCorrectCtx)).1
      (AutoCorrector.fix specStrategies
        (allocValue (.obj [("fiqh_school", .str "Hanafy")]) emptyHeap).1
        (allocValue (.obj [("fiqh_school", .str "Hanafy")]) emptyHeap).2
        (validateEnum (.obj [("fiqh_school", .str "Hanafy")]) fiqhRule)
        (some autoCorrectCtx)).2.1
    = some (.obj [("fiqh_school", .str "Hanafi")]) := by decide

example :
    (AutoCorrector.fix specStrategies
        (allocValue (.obj [("fiqh_school", .str "Sunni")]) emptyHeap).1
        (allocValue (.obj [("fiqh_school", .str "Sunni")]) emptyHeap).2
        (validateEnum (.obj [("fiqh_school", .str "Sunni")]) fiqhRule)
        (some autoCorrectCtx)).2.1 = none := by decide

/-- The `timezone` required rule of the spec's testable property. -/
def timezoneRule : RequiredRule :=
  { field? := some "timezone", default_value? := some (.str "Asia/Dhaka") }

example :
    readRoot
      (AutoCorrector.fix specStrategies
        (allocValue (.obj [("city", .str "Dhaka")]) emptyHeap).1
        (allocValue (.obj [("city", .str "Dhaka")]) emptyHeap).2
        (validateRequired (.obj [("city", .str "Dhaka")]) timezoneRule)
        (some autoCorrectCtx)).1
      (AutoCorrector.fix specStrategies
        (allocValue (.obj [("city", .str "Dhaka")]) emptyHeap).1
        (allocValue (.obj [("city", .str "Dhaka")]) emptyHeap).2
        (validateRequired (.obj [("city", .str "Dhaka")]) timezoneRule)
        (some autoCorrectCtx)).2.1
    = some (.obj [("city", .str "Dhaka"), ("timezone", .str "Asia/Dhaka")]) := by decide

example :
    readRoot
      (AutoCorrector.fix specStrategies
        (allocValue (.obj [("timezone", .null)]) emptyHeap).1
        (allocValue (.obj [("timezone", .null)]) emptyHeap).2
        (validateRequired (.obj [("timezone", .null)]) timezoneRule)
        (some autoCorrectCtx)).1
      (AutoCorrector.fix specStrategies
        (allocValue (.obj [("timezone", .null)]) emptyHeap).1
        (allocValue (.obj [("timezone", .null)]) emptyHeap).2
        (validateRequired (.obj [("timezone", .null)]) timezoneRule)
        (some autoCorrectCtx)).2.1
    = some (.obj [("timezone", .str "Asia/Dhaka")]) := by decide

example :
    validateRequired (.obj [("timezone", .str "UTC")]) timezoneRule = [] := by decide

example :
    (AutoCorrector.fix srcStrategies (allocValue hoursDoc emptyHeap).1
      (allocValue hoursDoc emptyHeap).2 [hoursViolation] none).2.2
    = ["Clamped hours from 30 to 24 (range: 0-24)"] := by decide

/-! ## Heap invariants for the cloning discipline

The key frame property (claim C9 below) is that `AutoCorrector.fix` never
writes to an address reachable from the caller's document: every mutation
targets the fresh segment `[N, ·)` created by the initial `deepcopy`. -/

/-- Every address reachable from `a` (including `a`) lies below `N`; the
finiteness of the proof tree also certifies that reachability from `a` is
well-founded, which holds for every tree the allocator builds. -/
inductive BelowP (h : Heap) (N : ℕ) : ℕ → Prop where
  | mk {a : ℕ} (ha : a < N)
      (hc : ∀ n, h.lookup a = some n → ∀ b ∈ n.children, BelowP h N b) :
      BelowP h N a

/-- Objects in the fresh segment `[N, ·)` refer only to the fresh segment. -/
def GoodHeap (h : Heap) (N : ℕ) : Prop :=
  ∀ a n, N ≤ a → h.lookup a = some n → ∀ b ∈ n.children, N ≤ b

theorem Heap.lookup_set (h : Heap) (a : ℕ) (n : HNode) (b : ℕ) :
    (h.set a n).lookup b = if a = b then some n else h.lookup b := by
  simp [Heap.set, Heap.lookup, assocFind]

theorem Heap.lookup_alloc (h : Heap) (n : HNode) (b : ℕ) :
    (h.alloc n).1.lookup b = if h.next = b then some n else h.lookup b := by
  simp [Heap.alloc, Heap.lookup, assocFind]

theorem Heap.alloc_next (h : Heap) (n : HNode) : (h.alloc n).1.next = h.next + 1 := rfl

theorem Heap.alloc_addr (h : Heap) (n : HNode) : (h.alloc n).2 = h.next := rfl

theorem Heap.set_next (h : Heap) (a : ℕ) (n : HNode) : (h.set a n).next = h.next := rfl

/-- `BelowP` only depends on the heap below the watermark. -/
theorem BelowP.mono_heap {h h2 : Heap} {N a : ℕ}
    (hb : BelowP h N a) (hpres : ∀ b, b < N → h2.lookup b = h.lookup b) :
    BelowP h2 N a := by
  induction hb with
  | mk ha hc ih =>
    exact .mk ha (fun n hn b hbmem => ih _ ((hpres _ ha) ▸ hn) _ hbmem)

/-- `BelowP` is monotone in the watermark. -/
theorem BelowP.mono_N {h : Heap} {N M a : ℕ} (hNM : N ≤ M) (hb : BelowP h N a) :
    BelowP h M a := by
  induction hb with
  | mk ha hc ih => exact .mk (lt_of_lt_of_le ha hNM) (fun n hn b hbmem => ih _ hn _ hbmem)

/-- Congruence for `Option`-monadic `mapM` under pointwise equality (stated
on the tail-recursive worker so it rewrites the unfolded form). -/
theorem mapM_loop_opt_congr {α β : Type} (f g : α → Option β) (l : List α)
    (hfg : ∀ x ∈ l, f x = g x) :
    ∀ acc, List.mapM.loop f l acc = List.mapM.loop g l acc := by
  induction l with
  | nil => intro acc; rfl
  | cons x xs ih =>
    intro acc
    rw [List.mapM.loop, List.mapM.loop, hfg x (by simp)]
    cases g x with
    | none => rfl
    | some y => exact ih (fun z hz => hfg z (by simp [hz])) _

/-- Readout frame lemma: reading a tree that lives entirely below `N` is
unaffected by heap changes at or above `N`. -/
theorem readN_frame {h h2 : Heap} {N : ℕ}
    (hpres : ∀ b, b < N → h2.lookup b = h.lookup b) :
    ∀ (k : ℕ) (a : ℕ), BelowP h N a → readN k h2 a = readN k h a := by
  intro k
  induction k with
  | zero => intro a _; rfl
  | succ fuel ih =>
    intro a hb
    rcases hb with ⟨ha, hc⟩
    rw [readN, readN, hpres a ha]
    match hn : h.lookup a with
    | none => rfl
    | some (.scalar s) => rfl
    | some (.dict ps) =>
      have hcg := mapM_loop_opt_congr
        (fun p => (readN fuel h2 p.2).map fun v => (p.1, v))
        (fun p => (readN fuel h p.2).map fun v => (p.1, v)) ps
        (fun p hp => by
          simp only [ih p.2 (hc _ hn p.2 (by
            simp only [HNode.children]
            exact List.mem_map_of_mem Prod.snd hp))]) []
      simp only [List.mapM, hcg]
    | some (.arr as) =>
      have hcg := mapM_loop_opt_congr
        (fun b => readN fuel h2 b) (fun b => readN fuel h b) as
        (fun b hbm => by
          simp only [ih b (hc _ hn b (by simp [HNode.children, hbm]))]) []
      simp only [List.mapM, hcg]

mutual

/-- Allocation bumps the watermark, returns a fresh root, and leaves every
pre-existing address untouched. -/
theorem allocValue_spec : ∀ (v : Value) (h : Heap),
    h.next ≤ (allocValue v h).2 ∧ (allocValue v h).2 < (allocValue v h).1.next ∧
    h.next < (allocValue v h).1.next ∧
    ∀ a, a < h.next → (allocValue v h).1.lookup a = h.lookup a
  | .null, h => by
      simp [allocValue, Heap.alloc, Heap.lookup, assocFind]
      intro a ha
      simp [Nat.ne_of_gt ha]
  | .bool b, h => by
      simp [allocValue, Heap.alloc, Heap.lookup, assocFind]
      intro a ha
      simp [Nat.ne_of_gt ha]
  | .num q, h => by
      simp [allocValue, Heap.alloc, Heap.lookup, assocFind]
      intro a ha
      simp [Nat.ne_of_gt ha]
  | .str s, h => by
      simp [allocValue, Heap.alloc, Heap.lookup, assocFind]
      intro a ha
      simp [Nat.ne_of_gt ha]
  | .arr xs, h => by
      obtain ⟨h1, -, h3⟩ := allocList_spec xs h
      refine ⟨h1, by simp [allocValue, Heap.alloc], lt_of_le_of_lt h1 (by
        simp [allocValue, Heap.alloc]), ?_⟩
      intro a ha
      rw [allocValue, Heap.lookup_alloc, h3 a ha,
        if_neg (Nat.ne_of_gt (lt_of_lt_of_le ha h1))]
  | .obj fs, h => by
      obtain ⟨h1, -, h3⟩ := allocFields_spec fs h
      refine ⟨h1, by simp [allocValue, Heap.alloc], lt_of_le_of_lt h1 (by
        simp [allocValue, Heap.alloc]), ?_⟩
      intro a ha
      rw [allocValue, Heap.lookup_alloc, h3 a ha,
        if_neg (Nat.ne_of_gt (lt_of_lt_of_le ha h1))]

theorem allocList_spec : ∀ (xs : List Value) (h : Heap),
    h.next ≤ (allocList xs h).1.next ∧
    (∀ b ∈ (allocList xs h).2, h.next ≤ b ∧ b < (allocList xs h).1.next) ∧
    ∀ a, a < h.next → (allocList xs h).1.lookup a = h.lookup a
  | [], h => by simp [allocList]
  | v :: rest, h => by
      obtain ⟨hv1, hv2, hv3, hv4⟩ := allocValue_spec v h
      obtain ⟨hr1, hr2, hr3⟩ := allocList_spec rest (allocValue v h).1
      refine ⟨le_trans (le_of_lt hv3) hr1, ?_, ?_⟩
      · intro b hb
        rw [allocList] at hb
        simp only [List.mem_cons] at hb
        rcases hb with rfl | hb
        · exact ⟨hv1, lt_of_lt_of_le hv2 hr1⟩
        · obtain ⟨hb1, hb2⟩ := hr2 b hb
          exact ⟨le_trans (le_of_lt hv3) hb1, by simpa [allocList] using hb2⟩
      · intro a ha
        rw [allocList]
        rw [hr3 a (lt_of_lt_of_le ha (le_of_lt hv3)), hv4 a ha]

theorem allocFields_spec : ∀ (fs : List (String × Value)) (h : Heap),
    h.next ≤ (allocFields fs h).1.next ∧
    (∀ p ∈ (allocFields fs h).2, h.next ≤ p.2 ∧ p.2 < (allocFields fs h).1.next) ∧
    ∀ a, a < h.next → (allocFields fs h).1.lookup a = h.lookup a
  | [], h => by simp [allocFields]
  | (k, v) :: rest, h => by
      obtain ⟨hv1, hv2, hv3, hv4⟩ := allocValue_spec v h
      obtain ⟨hr1, hr2, hr3⟩ := allocFields_spec rest (allocValue v h).1
      refine ⟨le_trans (le_of_lt hv3) hr1, ?_, ?_⟩
      · intro p hp
        rw [allocFields] at hp
        simp only [List.mem_cons] at hp
        rcases hp with rfl | hp
        · exact ⟨hv1, lt_of_lt_of_le hv2 hr1⟩
        · obtain ⟨hb1, hb2⟩ := hr2 p hp
          exact ⟨le_trans (le_of_lt hv3) hb1, by simpa [allocFields] using hb2⟩
      · intro a ha
        rw [allocFields]
        rw [hr3 a (lt_of_lt_of_le ha (le_of_lt hv3)), hv4 a ha]

end

mutual

/-- Allocation preserves fresh-segment closure: new nodes refer only to
fresh children. -/
theorem allocValue_good : ∀ (v : Value) (h : Heap) (N : ℕ),
    N ≤ h.next → GoodHeap h N → GoodHeap (allocValue v h).1 N
  | .null, h, N, hN, hG => by
      intro a n haN hlook b hb
      rw [allocValue, Heap.lookup_alloc] at hlook
      split at hlook
      · cases hlook; cases hb
      · exact hG a n haN hlook b hb
  | .bool c, h, N, hN, hG => by
      intro a n haN hlook b hb
      rw [allocValue, Heap.lookup_alloc] at hlook
      split at hlook
      · cases hlook; cases hb
      · exact hG a n haN hlook b hb
  | .num q, h, N, hN, hG => by
      intro a n haN hlook b hb
      rw [allocValue, Heap.lookup_alloc] at hlook
      split at hlook
      · cases hlook; cases hb
      · exact hG a n haN hlook b hb
  | .str s, h, N, hN, hG => by
      intro a n haN hlook b hb
      rw [allocValue, Heap.lookup_alloc] at hlook
      split at hlook
      · cases hlook; cases hb
      · exact hG a n haN hlook b hb
  | .arr xs, h, N, hN, hG => by
      obtain ⟨hl1, hl2, -⟩ := allocList_spec xs h
      have hG' := allocList_good xs h N hN hG
      intro a n haN hlook b hb
      rw [allocValue, Heap.lookup_alloc] at hlook
      split at hlook
      · cases hlook
        simp only [HNode.children] at hb
        exact le_trans hN (hl2 b hb).1
      · exact hG' a n haN hlook b hb
  | .obj fs, h, N, hN, hG => by
      obtain ⟨hl1, hl2, -⟩ := allocFields_spec fs h
      have hG' := allocFields_good fs h N hN hG
      intro a n haN hlook b hb
      rw [allocValue, Heap.lookup_alloc] at hlook
      split at hlook
      · cases hlook
        simp only [HNode.children, List.mem_map] at hb
        obtain ⟨p, hp, rfl⟩ := hb
        exact le_trans hN (hl2 p hp).1
      · exact hG' a n haN hlook b hb

theorem allocList_good : ∀ (xs : List Value) (h : Heap) (N : ℕ),
    N ≤ h.next → GoodHeap h N → GoodHeap (allocList xs h).1 N
  | [], h, N, hN, hG => by rw [allocList]; exact hG
  | v :: rest, h, N, hN, hG => by
      obtain ⟨-, -, hv3, -⟩ := allocValue_spec v h
      rw [allocList]
      exact allocList_good rest (allocValue v h).1 N
        (le_trans hN (le_of_lt hv3)) (allocValue_good v h N hN hG)

theorem allocFields_good : ∀ (fs : List (String × Value)) (h : Heap) (N : ℕ),
    N ≤ h.next → GoodHeap h N → GoodHeap (allocFields fs h).1 N
  | [], h, N, hN, hG => by rw [allocFields]; exact hG
  | (k, v) :: rest, h, N, hN, hG => by
      obtain ⟨-, -, hv3, -⟩ := allocValue_spec v h
      rw [allocFields]
      exact allocFields_good rest (allocValue v h).1 N
        (le_trans hN (le_of_lt hv3)) (allocValue_good v h N hN hG)

end

mutual

/-- A freshly allocated tree lives entirely below the new watermark. -/
theorem allocValue_below : ∀ (v : Value) (h : Heap),
    BelowP (allocValue v h).1 (allocValue v h).1.next (allocValue v h).2
  | .null, h => by
      refine .mk (by simp [allocValue, Heap.alloc]) ?_
      intro n hn b hb
      rw [allocValue, Heap.lookup_alloc, Heap.alloc_addr, if_pos rfl] at hn
      cases hn; cases hb
  | .bool c, h => by
      refine .mk (by simp [allocValue, Heap.alloc]) ?_
      intro n hn b hb
      rw [allocValue, Heap.lookup_alloc, Heap.alloc_addr, if_pos rfl] at hn
      cases hn; cases hb
  | .num q, h => by
      refine .mk (by simp [allocValue, Heap.alloc]) ?_
      intro n hn b hb
      rw [allocValue, Heap.lookup_alloc, Heap.alloc_addr, if_pos rfl] at hn
      cases hn; cases hb
  | .str s, h => by
      refine .mk (by simp [allocValue, Heap.alloc]) ?_
      intro n hn b hb
      rw [allocValue, Heap.lookup_alloc, Heap.alloc_addr, if_pos rfl] at hn
      cases hn; cases hb
  | .arr xs, h => by
      obtain ⟨hl1, hl2, hl3⟩ := allocList_spec xs h
      refine .mk (by simp [allocValue, Heap.alloc]) ?_
      intro n hn b hb
      rw [allocValue, Heap.lookup_alloc, Heap.alloc_addr, if_pos rfl] at hn
      cases hn
      simp only [HNode.children] at hb
      have hbelow := allocList_below xs h b hb
      have htrans : BelowP (allocValue (.arr xs) h).1 (allocList xs h).1.next b :=
        hbelow.mono_heap (fun c hc => by
          rw [allocValue, Heap.lookup_alloc, if_neg (Nat.ne_of_gt hc)])
      exact htrans.mono_N (by simp [allocValue, Heap.alloc])
  | .obj fs, h => by
      obtain ⟨hl1, hl2, hl3⟩ := allocFields_spec fs h
      refine .mk (by simp [allocValue, Heap.alloc]) ?_
      intro n hn b hb
      rw [allocValue, Heap.lookup_alloc, Heap.alloc_addr, if_pos rfl] at hn
      cases hn
      simp only [HNode.children, List.mem_map] at hb
      obtain ⟨p, hp, rfl⟩ := hb
      have hbelow := allocFields_below fs h p hp
      have htrans : BelowP (allocValue (.obj fs) h).1 (allocFields fs h).1.next p.2 :=
        hbelow.mono_heap (fun c hc => by
          rw [allocValue, Heap.lookup_alloc, if_neg (Nat.ne_of_gt hc)])
      exact htrans.mono_N (by simp [allocValue, Heap.alloc])

theorem allocList_below : ∀ (xs : List Value) (h : Heap),
    ∀ b ∈ (allocList xs h).2, BelowP (allocList xs h).1 (allocList xs h).1.next b
  | [], h => by rw [allocList]; intro b hb; cases hb
  | v :: rest, h => by
      obtain ⟨hr1, hr2, hr3⟩ := allocList_spec rest (allocValue v h).1
      obtain ⟨hv1, hv2, hv3, hv4⟩ := allocValue_spec v h
      intro b hb
      rw [allocList] at hb ⊢
      simp only [List.mem_cons] at hb
      rcases hb with rfl | hb
      · have hbelow := allocValue_below v h
        exact (hbelow.mono_heap fun c hc => hr3 c hc).mono_N hr1
      · exact allocList_below rest (allocValue v h).1 b hb

theorem allocFields_below : ∀ (fs : List (String × Value)) (h : Heap),
    ∀ p ∈ (allocFields fs h).2,
      BelowP (allocFields fs h).1 (allocFields fs h).1.next p.2
  | [], h => by rw [allocFields]; intro p hp; cases hp
  | (k, v) :: rest, h => by
      obtain ⟨hr1, hr2, hr3⟩ := allocFields_spec rest (allocValue v h).1
      obtain ⟨hv1, hv2, hv3, hv4⟩ := allocValue_spec v h
      intro p hp
      rw [allocFields] at hp ⊢
      simp only [List.mem_cons] at hp
      rcases hp with rfl | hp
      · have hbelow := allocValue_below v h
        exact (hbelow.mono_heap fun c hc => hr3 c hc).mono_N hr1
      · exact allocFields_below rest (allocValue v h).1 p hp

end

/-- Every tree has positive size. -/
theorem Value.vsize_pos : ∀ v : Value, 1 ≤ Value.vsize v := by
  intro v
  cases v <;> simp [Value.vsize]

mutual

/-- Reading a freshly allocated tree gives the tree back, for any fuel at
least the tree's size. -/
theorem allocValue_read : ∀ (v : Value) (h : Heap) (k : ℕ), Value.vsize v ≤ k →
    readN k (allocValue v h).1 (allocValue v h).2 = some v
  | .null, h, k, hk => by
      cases k with
      | zero => exact absurd hk (by simp [Value.vsize])
      | succ k' =>
        rw [allocValue, Heap.alloc_addr, readN, Heap.lookup_alloc, if_pos rfl]
        rfl
  | .bool b, h, k, hk => by
      cases k with
      | zero => exact absurd hk (by simp [Value.vsize])
      | succ k' =>
        rw [allocValue, Heap.alloc_addr, readN, Heap.lookup_alloc, if_pos rfl]
        rfl
  | .num q, h, k, hk => by
      cases k with
      | zero => exact absurd hk (by simp [Value.vsize])
      | succ k' =>
        rw [allocValue, Heap.alloc_addr, readN, Heap.lookup_alloc, if_pos rfl]
        rfl
  | .str s, h, k, hk => by
      cases k with
      | zero => exact absurd hk (by simp [Value.vsize])
      | succ k' =>
        rw [allocValue, Heap.alloc_addr, readN, Heap.lookup_alloc, if_pos rfl]
        rfl
  | .arr xs, h, k, hk => by
      cases k with
      | zero => exact absurd hk (by simp [Value.vsize])
      | succ k' =>
        have hk' : Value.vsize.vsizeList xs ≤ k' := by
          have hs : Value.vsize (.arr xs) = 1 + Value.vsize.vsizeList xs := rfl
          omega
        rw [allocValue, Heap.alloc_addr, readN, Heap.lookup_alloc, if_pos rfl]
        have hlist := allocList_read xs h k' hk'
        have hpres : ∀ c, c < (allocList xs h).1.next →
            ((allocList xs h).1.alloc (.arr (allocList xs h).2)).1.lookup c
              = (allocList xs h).1.lookup c := fun c hc => by
          rw [Heap.lookup_alloc, if_neg (Nat.ne_of_gt hc)]
        have hcong := mapM_loop_opt_congr
          (fun b => readN k' ((allocList xs h).1.alloc (.arr (allocList xs h).2)).1 b)
          (fun b => readN k' (allocList xs h).1 b) (allocList xs h).2
          (fun b hb => readN_frame hpres k' b (allocList_below xs h b hb)) []
        simp only [List.mapM] at hlist ⊢
        rw [hcong, hlist]
        rfl
  | .obj fs, h, k, hk => by
      cases k with
      | zero => exact absurd hk (by simp [Value.vsize])
      | succ k' =>
        have hk' : Value.vsize.vsizeFields fs ≤ k' := by
          have hs : Value.vsize (.obj fs) = 1 + Value.vsize.vsizeFields fs := rfl
          omega
        rw [allocValue, Heap.alloc_addr, readN, Heap.lookup_alloc, if_pos rfl]
        have hlist := allocFields_read fs h k' hk'
        have hpres : ∀ c, c < (allocFields fs h).1.next →
            ((allocFields fs h).1.alloc (.dict (allocFields fs h).2)).1.lookup c
              = (allocFields fs h).1.lookup c := fun c hc => by
          rw [Heap.lookup_alloc, if_neg (Nat.ne_of_gt hc)]
        have hcong := mapM_loop_opt_congr
          (fun p => (readN k' ((allocFields fs h).1.alloc
            (.dict (allocFields fs h).2)).1 p.2).map fun v => (p.1, v))
          (fun p => (readN k' (allocFields fs h).1 p.2).map fun v => (p.1, v))
          (allocFields fs h).2
          (fun p hp => by
            have hf := readN_frame hpres k' p.2 (allocFields_below fs h p hp)
            simp only [hf]) []
        simp only [List.mapM] at hlist ⊢
        rw [hcong, hlist]
        rfl

theorem allocList_read : ∀ (xs : List Value) (h : Heap) (k : ℕ),
    Value.vsize.vsizeList xs ≤ k →
    (allocList xs h).2.mapM (fun b => readN k (allocList xs h).1 b) = some xs
  | [], h, k, hk => by rw [allocList]; rfl
  | v :: rest, h, k, hk => by
      have hsum : Value.vsize.vsizeList (v :: rest)
          = Value.vsize v + Value.vsize.vsizeList rest := rfl
      have hv : Value.vsize v ≤ k := by omega
      have hrest : Value.vsize.vsizeList rest ≤ k := by omega
      obtain ⟨hr1, hr2, hr3⟩ := allocList_spec rest (allocValue v h).1
      have hhead : readN k (allocList rest (allocValue v h).1).1 (allocValue v h).2
          = some v := by
        rw [readN_frame (fun c hc => hr3 c hc) k (allocValue v h).2
          (allocValue_below v h)]
        exact allocValue_read v h k hv
      have htail := allocList_read rest (allocValue v h).1 k hrest
      rw [allocList]
      rw [List.mapM_cons]
      simp only [hhead, htail]
      rfl

theorem allocFields_read : ∀ (fs : List (String × Value)) (h : Heap) (k : ℕ),
    Value.vsize.vsizeFields fs ≤ k →
    (allocFields fs h).2.mapM
      (fun p => (readN k (allocFields fs h).1 p.2).map fun v => (p.1, v)) = some fs
  | [], h, k, hk => by rw [allocFields]; rfl
  | (key, v) :: rest, h, k, hk => by
      have hsum : Value.vsize.vsizeFields ((key, v) :: rest)
          = Value.vsize v + Value.vsize.vsizeFields rest := rfl
      have hv : Value.vsize v ≤ k := by omega
      have hrest : Value.vsize.vsizeFields rest ≤ k := by omega
      obtain ⟨hr1, hr2, hr3⟩ := allocFields_spec rest (allocValue v h).1
      have hhead : readN k (allocFields rest (allocValue v h).1).1 (allocValue v h).2
          = some v := by
        rw [readN_frame (fun c hc => hr3 c hc) k (allocValue v h).2
          (allocValue_below v h)]
        exact allocValue_read v h k hv
      have htail := allocFields_read rest (allocValue v h).1 k hrest
      rw [allocFields]
      rw [List.mapM_cons]
      simp only [hhead, htail]
      rfl

end

/-- The working invariant of the corrector: the fresh segment is closed and
the watermark is below the allocator pointer. -/
def HInv (N : ℕ) (h : Heap) : Prop :=
  GoodHeap h N ∧ N ≤ h.next

/-- Heap change that leaves every address below `N` untouched. -/
def Pres (h : Heap) (N : ℕ) (h' : Heap) : Prop :=
  ∀ a, a < N → h'.lookup a = h.lookup a

theorem Pres.refl (h : Heap) (N : ℕ) : Pres h N h := fun _ _ => rfl

theorem Pres.trans {h1 h2 h3 : Heap} {N : ℕ} (p : Pres h1 N h2) (q : Pres h2 N h3) :
    Pres h1 N h3 := fun a ha => (q a ha).trans (p a ha)

theorem alloc_pres {h : Heap} {N : ℕ} (hN : N ≤ h.next) (n : HNode) :
    Pres h N (h.alloc n).1 := by
  intro a ha
  rw [Heap.lookup_alloc, if_neg (Nat.ne_of_gt (lt_of_lt_of_le ha hN))]

theorem set_pres {h : Heap} {N a : ℕ} (ha : N ≤ a) (n : HNode) :
    Pres h N (h.set a n) := by
  intro b hb
  rw [Heap.lookup_set, if_neg (Nat.ne_of_gt (lt_of_lt_of_le hb ha))]

theorem HInv_alloc {h : Heap} {N : ℕ} {n : HNode} (hI : HInv N h)
    (hc : ∀ b ∈ n.children, N ≤ b) : HInv N (h.alloc n).1 := by
  refine ⟨?_, le_trans hI.2 (by simp [Heap.alloc])⟩
  intro a m haN hlook b hb
  rw [Heap.lookup_alloc] at hlook
  split at hlook
  · cases hlook; exact hc b hb
  · exact hI.1 a m haN hlook b hb

theorem HInv_set {h : Heap} {N a : ℕ} {n : HNode} (hI : HInv N h) (ha : N ≤ a)
    (hc : ∀ b ∈ n.children, N ≤ b) : HInv N (h.set a n) := by
  refine ⟨?_, hI.2⟩
  intro c m hcN hlook b hb
  rw [Heap.lookup_set] at hlook
  split at hlook
  · cases hlook; exact hc b hb
  · exact hI.1 c m hcN hlook b hb

theorem allocValue_inv {N : ℕ} {h : Heap} (v : Value) (hI : HInv N h) :
    HInv N (allocValue v h).1 ∧ Pres h N (allocValue v h).1 ∧
      N ≤ (allocValue v h).2 := by
  obtain ⟨h1, h2, h3, h4⟩ := allocValue_spec v h
  exact ⟨⟨allocValue_good v h N hI.2 hI.1, le_trans hI.2 (le_of_lt h3)⟩,
    fun a ha => h4 a (lt_of_lt_of_le ha hI.2), le_trans hI.2 h1⟩

theorem deepcopyH_inv {N : ℕ} {h : Heap} (a : ℕ) (hI : HInv N h) :
    HInv N (deepcopyH h a).1 ∧ Pres h N (deepcopyH h a).1 ∧
      N ≤ (deepcopyH h a).2 := by
  rw [deepcopyH]
  match readN (h.next + 1) h a with
  | some v => exact allocValue_inv v hI
  | none =>
    exact ⟨HInv_alloc hI (by simp [HNode.children]), alloc_pres hI.2 _,
      by rw [Heap.alloc_addr]; exact hI.2⟩

theorem assocFind_mem {κ α : Type} [DecidableEq κ] :
    ∀ (l : List (κ × α)) (k : κ) (v : α), assocFind l k = some v → (k, v) ∈ l := by
  intro l
  induction l with
  | nil => intro k v h; cases h
  | cons p rest ih =>
    obtain ⟨k', v'⟩ := p
    intro k v h
    rw [assocFind] at h
    split at h
    · rename_i heq
      cases h
      subst heq
      exact List.mem_cons_self _ _
    · exact List.mem_cons_of_mem _ (ih k v h)

/-- Children introduced by a dict update are the old children plus the new
value. -/
theorem dictSetN_children : ∀ (fs : List (String × ℕ)) (k : String) (va b : ℕ),
    b ∈ (dictSetN fs k va).map Prod.snd → b ∈ fs.map Prod.snd ∨ b = va := by
  intro fs
  induction fs with
  | nil =>
    intro k va b hb
    simp [dictSetN] at hb
    exact Or.inr hb
  | cons p rest ih =>
    intro k va b hb
    rw [dictSetN] at hb
    split at hb
    · simp at hb
      rcases hb with rfl | hb
      · exact Or.inr rfl
      · exact Or.inl (by simp [hb])
    · simp at hb
      rcases hb with rfl | hb
      · exact Or.inl (by simp)
      · rcases ih k va b (by simp [hb]) with h | h
        · exact Or.inl (by simp at h ⊢; exact Or.inr h)
        · exact Or.inr h

/-- A dict member's address is a child of the node. -/
theorem mem_children_of_assocFind {fs : List (String × ℕ)} {k : String} {b : ℕ}
    (hf : assocFind fs k = some b) : b ∈ (HNode.dict fs).children := by
  simp only [HNode.children]
  exact List.mem_map_of_mem Prod.snd (assocFind_mem fs k b hf)

/-- `_set_field_value` writes only into the fresh segment and keeps it
closed. -/
theorem setFieldH_inv : ∀ (keys : List String) (h : Heap) (a va N : ℕ),
    HInv N h → N ≤ a → N ≤ va →
    HInv N (setFieldH h a keys va).1 ∧ Pres h N (setFieldH h a keys va).1
  | [], h, a, va, N => by
      intro hI _ _
      exact ⟨hI, Pres.refl h N⟩
  | [k], h, a, va, N => by
      intro hI ha hva
      rw [setFieldH]
      match hn : h.lookup a with
      | some (.dict fs) =>
        have hch : ∀ b ∈ (HNode.dict (dictSetN fs k va)).children, N ≤ b := by
          intro b hb
          simp only [HNode.children] at hb
          rcases dictSetN_children fs k va b hb with hmem | rfl
          · exact hI.1 a _ ha hn b (by simpa [HNode.children] using hmem)
          · exact hva
        exact ⟨HInv_set hI ha hch, set_pres ha _⟩
      | some (.scalar s) => exact ⟨hI, Pres.refl h N⟩
      | some (.arr as) => exact ⟨hI, Pres.refl h N⟩
      | none => exact ⟨hI, Pres.refl h N⟩
  | k :: k2 :: rest, h, a, va, N => by
      intro hI ha hva
      rw [setFieldH]
      split
      case _ fs hn =>
        split
        case _ b hf =>
          have hb : N ≤ b := hI.1 a _ ha hn b (mem_children_of_assocFind hf)
          exact setFieldH_inv (k2 :: rest) h b va N hI hb hva
        case _ hf =>
          have hnb : N ≤ (h.alloc (.dict [])).2 := by rw [Heap.alloc_addr]; exact hI.2
          have hI1 : HInv N (h.alloc (.dict [])).1 :=
            HInv_alloc hI (by simp [HNode.children])
          have hch : ∀ b ∈ (HNode.dict (dictSetN fs k (h.alloc (.dict [])).2)).children,
              N ≤ b := by
            intro b hb
            simp only [HNode.children] at hb
            rcases dictSetN_children fs k _ b hb with hmem | rfl
            · exact hI.1 a _ ha hn b (by simpa [HNode.children] using hmem)
            · exact hnb
          have hI2 : HInv N ((h.alloc (.dict [])).1.set a
              (.dict (dictSetN fs k (h.alloc (.dict [])).2))) := HInv_set hI1 ha hch
          obtain ⟨hIr, hPr⟩ := setFieldH_inv (k2 :: rest) _ _ va N hI2 hnb hva
          exact ⟨hIr, ((alloc_pres hI.2 _).trans (set_pres ha _)).trans hPr⟩
      case _ x hn => exact ⟨hI, Pres.refl h N⟩

/-- Dot-path reads starting in the fresh segment stay in the fresh segment. -/
theorem getFieldH_ge : ∀ (keys : List String) (h : Heap) (a : ℕ) {N b : ℕ},
    GoodHeap h N → N ≤ a → getFieldH h a keys = some b → N ≤ b
  | [], h, a, N, b => by
      intro hG ha hgf
      rw [getFieldH] at hgf
      cases hgf
      exact ha
  | k :: rest, h, a, N, b => by
      intro hG ha hgf
      rw [getFieldH] at hgf
      split at hgf
      case _ fs hn =>
        split at hgf
        case _ c hf =>
          exact getFieldH_ge rest h c hG (hG a _ ha hn c (mem_children_of_assocFind hf)) hgf
        case _ => cases hgf
      case _ => cases hgf

/-- Type coercion allocates in the fresh segment (or aliases a fresh
value). -/
theorem coerceH_inv (target : String) (h : Heap) (cur : ℕ) {N : ℕ}
    (hI : HInv N h) (hcur : N ≤ cur) :
    ∀ h' va, coerceH h cur target = .ok (h', va) →
      HInv N h' ∧ Pres h N h' ∧ N ≤ va := by
  intro h' va hco
  rw [coerceH.eq_def] at hco
  split at hco
  rotate_right
  · -- fall-through
    cases hco
    exact ⟨hI, Pres.refl h N, hcur⟩
  · -- integer
    rcases hq : coerceNodeFloat (h.lookup cur) with e | q <;> rw [hq] at hco
    · cases hco
    · cases hco
      exact ⟨HInv_alloc hI (by simp [HNode.children]), alloc_pres hI.2 _, hI.2⟩
  · -- number
    rcases hq : coerceNodeFloat (h.lookup cur) with e | q <;> rw [hq] at hco
    · cases hco
    · cases hco
      exact ⟨HInv_alloc hI (by simp [HNode.children]), alloc_pres hI.2 _, hI.2⟩
  · -- string
    cases hco
    exact ⟨HInv_alloc hI (by simp [HNode.children]), alloc_pres hI.2 _, hI.2⟩
  · -- boolean
    split at hco <;> cases hco <;>
      exact ⟨HInv_alloc hI (by simp [HNode.children]), alloc_pres hI.2 _, hI.2⟩
  · -- array
    split at hco <;> cases hco
    · exact ⟨hI, Pres.refl h N, hcur⟩
    · refine ⟨HInv_alloc hI ?_, alloc_pres hI.2 _, hI.2⟩
      intro b hb
      simp [HNode.children] at hb
      exact hb ▸ hcur
  · -- object
    split at hco <;> cases hco
    · exact ⟨hI, Pres.refl h N, hcur⟩
    · refine ⟨HInv_alloc hI ?_, alloc_pres hI.2 _, hI.2⟩
      intro b hb
      simp [HNode.children] at hb
      exact hb ▸ hcur

/-- The invariant every strategy call preserves: the fresh segment stays
closed, addresses below the watermark are untouched, and a returned working
root is fresh. -/
def StratInv (N : ℕ) (h0 : Heap) (res : Heap × Option (ℕ × String)) : Prop :=
  HInv N res.1 ∧ Pres h0 N res.1 ∧ ∀ r d, res.2 = some (r, d) → N ≤ r

theorem clampAndSet_inv (h : Heap) (out corrected : ℕ) (field curStr : String)
    (minv maxv q : ℚ) {N : ℕ} (hI : HInv N h) (hcorr : N ≤ corrected) :
    StratInv N h (clampAndSet h out corrected field curStr minv maxv q) := by
  rw [clampAndSet.eq_def]
  simp only []
  have hIa : HInv N (h.alloc (.scalar (.num (max minv (min maxv q))))).1 :=
    HInv_alloc hI (by simp [HNode.children])
  have hva : N ≤ (h.alloc (.scalar (.num (max minv (min maxv q))))).2 := by
    rw [Heap.alloc_addr]; exact hI.2
  obtain ⟨hIs, hPs⟩ := setFieldH_inv (splitPath field) _ corrected _ N hIa hcorr hva
  split
  case _ h2 heq =>
    have h2eq : (setFieldH (h.alloc (.scalar (.num (max minv (min maxv q))))).1 corrected
        (splitPath field) (h.alloc (.scalar (.num (max minv (min maxv q))))).2).1 = h2 := by
      rw [heq]
    rw [h2eq] at hIs hPs
    refine ⟨hIs, (alloc_pres hI.2 _).trans hPs, ?_⟩
    intro r d hrd
    cases hrd
    exact hcorr
  case _ h2 heq =>
    have h2eq : (setFieldH (h.alloc (.scalar (.num (max minv (min maxv q))))).1 corrected
        (splitPath field) (h.alloc (.scalar (.num (max minv (min maxv q))))).2).1 = h2 := by
      rw [heq]
    rw [h2eq] at hIs hPs
    exact ⟨hIs, (alloc_pres hI.2 _).trans hPs, by intro r d hrd; cases hrd⟩

theorem fixRangeClamping_inv (h0 : Heap) (out : ℕ) (v : Violation) {N : ℕ}
    (hI : HInv N h0) (hout : N ≤ out) :
    StratInv N h0 (fixRangeClamping h0 out v) := by
  obtain ⟨hIc, hPc, hcorr⟩ := deepcopyH_inv out hI
  rw [fixRangeClamping.eq_def]
  simp only []
  split
  · exact ⟨hIc, hPc, by intro r d hrd; cases hrd⟩
  · exact ⟨hIc, hPc, by intro r d hrd; cases hrd; exact hout⟩
  · split
    · exact ⟨hIc, hPc, by intro r d hrd; cases hrd; exact hout⟩
    · split
      · exact ⟨hIc, hPc, by intro r d hrd; cases hrd; exact hout⟩
      · exact ⟨(clampAndSet_inv _ out _ v.field _ _ _ _ hIc hcorr).1,
          hPc.trans (clampAndSet_inv _ out _ v.field _ _ _ _ hIc hcorr).2.1,
          (clampAndSet_inv _ out _ v.field _ _ _ _ hIc hcorr).2.2⟩
      · exact ⟨(clampAndSet_inv _ out _ v.field _ _ _ _ hIc hcorr).1,
          hPc.trans (clampAndSet_inv _ out _ v.field _ _ _ _ hIc hcorr).2.1,
          (clampAndSet_inv _ out _ v.field _ _ _ _ hIc hcorr).2.2⟩
      · exact ⟨hIc, hPc, by intro r d hrd; cases hrd⟩

theorem fixTypeCoercion_inv (h0 : Heap) (out : ℕ) (v : Violation) {N : ℕ}
    (hI : HInv N h0) (hout : N ≤ out) :
    StratInv N h0 (fixTypeCoercion h0 out v) := by
  obtain ⟨hIc, hPc, hcorr⟩ := deepcopyH_inv out hI
  rw [fixTypeCoercion.eq_def]
  simp only []
  split
  · exact ⟨hIc, hPc, by intro r d hrd; cases hrd; exact hout⟩
  case _ target heq =>
    rcases hget : getFieldH (deepcopyH h0 out).1 out (splitPath v.field) with _ | cur
    all_goals simp only []
    · -- missing current value: a null scalar is materialised first
      have hIa : HInv N ((deepcopyH h0 out).1.alloc (.scalar .null)).1 :=
        HInv_alloc hIc (by simp [HNode.children])
      have hcur : N ≤ ((deepcopyH h0 out).1.alloc (.scalar .null)).2 := by
        rw [Heap.alloc_addr]; exact hIc.2
      have hP0 : Pres h0 N ((deepcopyH h0 out).1.alloc (.scalar .null)).1 :=
        hPc.trans (alloc_pres hIc.2 _)
      rcases hco : coerceH ((deepcopyH h0 out).1.alloc (.scalar .null)).1
          ((deepcopyH h0 out).1.alloc (.scalar .null)).2 target with e | p
      · simp only []
        exact ⟨hIa, hP0, by intro r d hrd; cases hrd; exact hout⟩
      · obtain ⟨h2, va⟩ := p
        obtain ⟨hI2, hP2, hva⟩ := coerceH_inv target _ _ hIa hcur h2 va hco
        simp only []
        obtain ⟨hIs, hPs⟩ :=
          setFieldH_inv (splitPath v.field) h2 (deepcopyH h0 out).2 va N hI2 hcorr hva
        split
        case _ h3 heq2 =>
          have h3eq : (setFieldH h2 (deepcopyH h0 out).2 (splitPath v.field) va).1
              = h3 := by rw [heq2]
          rw [h3eq] at hIs hPs
          exact ⟨hIs, (hP0.trans hP2).trans hPs,
            by intro r d hrd; cases hrd; exact hcorr⟩
        case _ h3 heq2 =>
          have h3eq : (setFieldH h2 (deepcopyH h0 out).2 (splitPath v.field) va).1
              = h3 := by rw [heq2]
          rw [h3eq] at hIs hPs
          exact ⟨hIs, (hP0.trans hP2).trans hPs,
            by intro r d hrd; cases hrd; exact hout⟩
    · -- current value found in the copy's heap: no extra allocation
      have hcur : N ≤ cur := getFieldH_ge _ _ out hIc.1 hout hget
      rcases hco : coerceH (deepcopyH h0 out).1 cur target with e | p
      · simp only []
        exact ⟨hIc, hPc, by intro r d hrd; cases hrd; exact hout⟩
      · obtain ⟨h2, va⟩ := p
        obtain ⟨hI2, hP2, hva⟩ := coerceH_inv target _ cur hIc hcur h2 va hco
        simp only []
        obtain ⟨hIs, hPs⟩ :=
          setFieldH_inv (splitPath v.field) h2 (deepcopyH h0 out).2 va N hI2 hcorr hva
        split
        case _ h3 heq2 =>
          have h3eq : (setFieldH h2 (deepcopyH h0 out).2 (splitPath v.field) va).1
              = h3 := by rw [heq2]
          rw [h3eq] at hIs hPs
          exact ⟨hIs, (hPc.trans hP2).trans hPs,
            by intro r d hrd; cases hrd; exact hcorr⟩
        case _ h3 heq2 =>
          have h3eq : (setFieldH h2 (deepcopyH h0 out).2 (splitPath v.field) va).1
              = h3 := by rw [heq2]
          rw [h3eq] at hIs hPs
          exact ⟨hIs, (hPc.trans hP2).trans hPs,
            by intro r d hrd; cases hrd; exact hout⟩

theorem fixStringTrim_inv (h0 : Heap) (out : ℕ) (v : Violation) {N : ℕ}
    (hI : HInv N h0) (hout : N ≤ out) :
    StratInv N h0 (fixStringTrim h0 out v) := by
  obtain ⟨hIc, hPc, hcorr⟩ := deepcopyH_inv out hI
  rw [fixStringTrim.eq_def]
  simp only []
  split
  case _ cur hget =>
    split
    case _ s hn =>
      have hIa : HInv N ((deepcopyH h0 out).1.alloc (.scalar (.str (pyStrip s)))).1 :=
        HInv_alloc hIc (by simp [HNode.children])
      have hva : N ≤ ((deepcopyH h0 out).1.alloc (.scalar (.str (pyStrip s)))).2 := by
        rw [Heap.alloc_addr]; exact hIc.2
      obtain ⟨hIs, hPs⟩ := setFieldH_inv (splitPath v.field) _ (deepcopyH h0 out).2 _ N
        hIa hcorr hva
      split
      case _ h2 heq2 =>
        have h2eq : (setFieldH ((deepcopyH h0 out).1.alloc (.scalar (.str (pyStrip s)))).1
            (deepcopyH h0 out).2 (splitPath v.field)
            ((deepcopyH h0 out).1.alloc (.scalar (.str (pyStrip s)))).2).1 = h2 := by
          rw [heq2]
        rw [h2eq] at hIs hPs
        exact ⟨hIs, hPc.trans ((alloc_pres hIc.2 _).trans hPs),
          by intro r d hrd; cases hrd; exact hcorr⟩
      case _ h2 heq2 =>
        have h2eq : (setFieldH ((deepcopyH h0 out).1.alloc (.scalar (.str (pyStrip s)))).1
            (deepcopyH h0 out).2 (splitPath v.field)
            ((deepcopyH h0 out).1.alloc (.scalar (.str (pyStrip s)))).2).1 = h2 := by
          rw [heq2]
        rw [h2eq] at hIs hPs
        exact ⟨hIs, hPc.trans ((alloc_pres hIc.2 _).trans hPs),
          by intro r d hrd; cases hrd⟩
    · exact ⟨hIc, hPc, by intro r d hrd; cases hrd; exact hout⟩
  · exact ⟨hIc, hPc, by intro r d hrd; cases hrd; exact hout⟩

theorem fixFuzzyMatch_inv (h0 : Heap) (out : ℕ) (v : Violation) {N : ℕ}
    (hI : HInv N h0) (hout : N ≤ out) :
    StratInv N h0 (fixFuzzyMatch h0 out v) := by
  obtain ⟨hIc, hPc, hcorr⟩ := deepcopyH_inv out hI
  rw [fixFuzzyMatch.eq_def]
  simp only []
  split
  · exact ⟨hIc, hPc, by intro r d hrd; cases hrd⟩
  case _ best p heq =>
    split
    · obtain ⟨hIa, hPa, hva⟩ := allocValue_inv best hIc
      obtain ⟨hIs, hPs⟩ := setFieldH_inv (splitPath v.field) _ (deepcopyH h0 out).2 _ N
        hIa hcorr hva
      split
      case _ h2 heq2 =>
        have h2eq : (setFieldH (allocValue best (deepcopyH h0 out).1).1
            (deepcopyH h0 out).2 (splitPath v.field)
            (allocValue best (deepcopyH h0 out).1).2).1 = h2 := by rw [heq2]
        rw [h2eq] at hIs hPs
        exact ⟨hIs, hPc.trans (hPa.trans hPs),
          by intro r d hrd; cases hrd; exact hcorr⟩
      case _ h2 heq2 =>
        have h2eq : (setFieldH (allocValue best (deepcopyH h0 out).1).1
            (deepcopyH h0 out).2 (splitPath v.field)
            (allocValue best (deepcopyH h0 out).1).2).1 = h2 := by rw [heq2]
        rw [h2eq] at hIs hPs
        exact ⟨hIs, hPc.trans (hPa.trans hPs), by intro r d hrd; cases hrd⟩
    · exact ⟨hIc, hPc, by intro r d hrd; cases hrd⟩

theorem fixDefaultValue_inv (h0 : Heap) (out : ℕ) (v : Violation) {N : ℕ}
    (hI : HInv N h0) (hout : N ≤ out) :
    StratInv N h0 (fixDefaultValue h0 out v) := by
  obtain ⟨hIc, hPc, hcorr⟩ := deepcopyH_inv out hI
  rw [fixDefaultValue.eq_def]
  simp only []
  split
  case _ fs heq =>
    split
    case _ dv hf =>
      obtain ⟨hIa, hPa, hva⟩ := allocValue_inv dv hIc
      obtain ⟨hIs, hPs⟩ := setFieldH_inv (splitPath v.field) _ (deepcopyH h0 out).2 _ N
        hIa hcorr hva
      split
      case _ h2 heq2 =>
        have h2eq : (setFieldH (allocValue dv (deepcopyH h0 out).1).1
            (deepcopyH h0 out).2 (splitPath v.field)
            (allocValue dv (deepcopyH h0 out).1).2).1 = h2 := by rw [heq2]
        rw [h2eq] at hIs hPs
        exact ⟨hIs, hPc.trans (hPa.trans hPs),
          by intro r d hrd; cases hrd; exact hcorr⟩
      case _ h2 heq2 =>
        have h2eq : (setFieldH (allocValue dv (deepcopyH h0 out).1).1
            (deepcopyH h0 out).2 (splitPath v.field)
            (allocValue dv (deepcopyH h0 out).1).2).1 = h2 := by rw [heq2]
        rw [h2eq] at hIs hPs
        exact ⟨hIs, hPc.trans (hPa.trans hPs), by intro r d hrd; cases hrd⟩
    case _ hf => exact ⟨hIc, hPc, by intro r d hrd; cases hrd⟩
  case _ => exact ⟨hIc, hPc, by intro r d hrd; cases hrd⟩

/-- Every strategy preserves the corrector's heap invariant. -/
theorem applyFix_inv (s : Strategy) (h0 : Heap) (out : ℕ) (v : Violation) {N : ℕ}
    (hI : HInv N h0) (hout : N ≤ out) :
    StratInv N h0 (s.applyFix h0 out v) := by
  cases s with
  | rangeClamping => exact fixRangeClamping_inv h0 out v hI hout
  | typeCoercion => exact fixTypeCoercion_inv h0 out v hI hout
  | stringTrim => exact fixStringTrim_inv h0 out v hI hout
  | fuzzyMatch => exact fixFuzzyMatch_inv h0 out v hI hout
  | defaultValue => exact fixDefaultValue_inv h0 out v hI hout

/-- The strategy loop over one violation preserves the invariant. -/
theorem stratLoop_inv : ∀ (strats : List Strategy) (h : Heap) (corrected : ℕ)
    (v : Violation) {N : ℕ}, HInv N h → N ≤ corrected →
    StratInv N h (stratLoop strats h corrected v)
  | [], h, c, v, N => fun hI _ =>
      ⟨hI, Pres.refl h N, by intro r d hrd; cases hrd⟩
  | s :: rest, h, c, v, N => fun hI hc => by
      rw [stratLoop]
      split
      · obtain ⟨hIa, hPa, hra⟩ := applyFix_inv s h c v hI hc
        rcases happ : s.applyFix h c v with ⟨h', res⟩
        have e1 : (s.applyFix h c v).1 = h' := by rw [happ]
        have e2 : (s.applyFix h c v).2 = res := by rw [happ]
        rw [e1] at hIa hPa
        rw [e2] at hra
        rcases res with _ | rp
        · simp only []
          obtain ⟨hI2, hP2, hr2⟩ := stratLoop_inv rest h' c v hIa hc
          exact ⟨hI2, hPa.trans hP2, hr2⟩
        · simp only []
          exact ⟨hIa, hPa, fun r d hrd => hra r d hrd⟩
      · exact stratLoop_inv rest h c v hI hc

/-- The violation loop preserves the invariant, and the working root stays
fresh. -/
theorem fixLoop_inv : ∀ (strats : List Strategy) (h : Heap) (corrected : ℕ)
    (viols : List Violation) (fixes : List String) (count : ℕ) {N : ℕ},
    HInv N h → N ≤ corrected →
    HInv N (fixLoop strats h corrected viols fixes count).1 ∧
    Pres h N (fixLoop strats h corrected viols fixes count).1 ∧
    N ≤ (fixLoop strats h corrected viols fixes count).2.1
  | strats, h, c, [], fixes, count, N => fun hI hc => ⟨hI, Pres.refl h N, hc⟩
  | strats, h, c, v :: rest, fixes, count, N => fun hI hc => by
      rw [fixLoop]
      split
      · exact fixLoop_inv strats h c rest fixes count hI hc
      · obtain ⟨hIs, hPs, hrs⟩ := stratLoop_inv strats h c v hI hc
        rcases hsl : stratLoop strats h c v with ⟨h', res⟩
        have e1 : (stratLoop strats h c v).1 = h' := by rw [hsl]
        have e2 : (stratLoop strats h c v).2 = res := by rw [hsl]
        rw [e1] at hIs hPs
        rw [e2] at hrs
        rcases res with _ | ⟨a, d⟩
        · simp only []
          obtain ⟨hI2, hP2, hr2⟩ := fixLoop_inv strats h' c rest fixes count hIs hc
          exact ⟨hI2, hPs.trans hP2, hr2⟩
        · simp only []
          obtain ⟨hI2, hP2, hr2⟩ :=
            fixLoop_inv strats h' a rest (fixes ++ [d]) (count + 1) hIs
              (hrs a d rfl)
          exact ⟨hI2, hPs.trans hP2, hr2⟩

/-- `AutoCorrector.fix` never writes below the watermark, and any corrected
root it returns is fresh. -/
theorem AutoCorrectorFix_inv (strats : List Strategy) (h0 : Heap) (output : ℕ)
    (viols : List Violation) (ctx? : Option Context) {N : ℕ} (hI : HInv N h0) :
    Pres h0 N (AutoCorrector.fix strats h0 output viols ctx?).1 ∧
    ∀ c, (AutoCorrector.fix strats h0 output viols ctx?).2.1 = some c → N ≤ c := by
  rw [AutoCorrector.fix.eq_def]
  simp only []
  split
  · exact ⟨Pres.refl h0 N, by intro c hc; cases hc⟩
  · obtain ⟨hIc, hPc, hcorr⟩ := deepcopyH_inv output hI
    obtain ⟨hIl, hPl, hrl⟩ :=
      fixLoop_inv strats (deepcopyH h0 output).1 (deepcopyH h0 output).2 viols [] 0
        hIc hcorr
    rcases hfl : fixLoop strats (deepcopyH h0 output).1 (deepcopyH h0 output).2
        viols [] 0 with ⟨h2, cf, fx, cnt⟩
    have e1 : (fixLoop strats (deepcopyH h0 output).1 (deepcopyH h0 output).2
        viols [] 0).1 = h2 := by rw [hfl]
    have e2 : (fixLoop strats (deepcopyH h0 output).1 (deepcopyH h0 output).2
        viols [] 0).2.1 = cf := by rw [hfl]
    rw [e1] at hIl hPl
    rw [e2] at hrl
    simp only []
    split
    · exact ⟨hPc.trans hPl, by intro c hc; cases hc; exact hrl⟩
    · exact ⟨hPc.trans hPl, by intro c hc; cases hc⟩

mutual

/-- Allocation only creates entries below the bumped pointer. -/
theorem allocValue_bounded : ∀ (v : Value) (h : Heap),
    (∀ a n, h.lookup a = some n → a < h.next) →
    ∀ a n, (allocValue v h).1.lookup a = some n → a < (allocValue v h).1.next
  | .null, h => by
      intro hB a n hlook
      rw [allocValue, Heap.lookup_alloc] at hlook
      rw [allocValue, Heap.alloc_next]
      split at hlook
      · omega
      · exact lt_trans (hB a n hlook) (Nat.lt_succ_self _)
  | .bool b, h => by
      intro hB a n hlook
      rw [allocValue, Heap.lookup_alloc] at hlook
      rw [allocValue, Heap.alloc_next]
      split at hlook
      · omega
      · exact lt_trans (hB a n hlook) (Nat.lt_succ_self _)
  | .num q, h => by
      intro hB a n hlook
      rw [allocValue, Heap.lookup_alloc] at hlook
      rw [allocValue, Heap.alloc_next]
      split at hlook
      · omega
      · exact lt_trans (hB a n hlook) (Nat.lt_succ_self _)
  | .str s, h => by
      intro hB a n hlook
      rw [allocValue, Heap.lookup_alloc] at hlook
      rw [allocValue, Heap.alloc_next]
      split at hlook
      · omega
      · exact lt_trans (hB a n hlook) (Nat.lt_succ_self _)
  | .arr xs, h => by
      intro hB a n hlook
      rw [allocValue, Heap.lookup_alloc] at hlook
      rw [allocValue, Heap.alloc_next]
      split at hlook
      · omega
      · exact lt_trans (allocList_bounded xs h hB a n hlook) (Nat.lt_succ_self _)
  | .obj fs, h => by
      intro hB a n hlook
      rw [allocValue, Heap.lookup_alloc] at hlook
      rw [allocValue, Heap.alloc_next]
      split at hlook
      · omega
      · exact lt_trans (allocFields_bounded fs h hB a n hlook) (Nat.lt_succ_self _)

theorem allocList_bounded : ∀ (xs : List Value) (h : Heap),
    (∀ a n, h.lookup a = some n → a < h.next) →
    ∀ a n, (allocList xs h).1.lookup a = some n → a < (allocList xs h).1.next
  | [], h => by intro hB; rw [allocList]; exact hB
  | v :: rest, h => by
      intro hB
      rw [allocList]
      exact allocList_bounded rest (allocValue v h).1 (allocValue_bounded v h hB)

theorem allocFields_bounded : ∀ (fs : List (String × Value)) (h : Heap),
    (∀ a n, h.lookup a = some n → a < h.next) →
    ∀ a n, (allocFields fs h).1.lookup a = some n → a < (allocFields fs h).1.next
  | [], h => by intro hB; rw [allocFields]; exact hB
  | (k, v) :: rest, h => by
      intro hB
      rw [allocFields]
      exact allocFields_bounded rest (allocValue v h).1 (allocValue_bounded v h hB)

end

/-! ## The claims -/

/-- C10, counterexample: dot-path lookup does NOT descend into arrays. On
`{a: [1, 2]}` the path `a.0` reaches `None`, not the array element `1` that
descending into the array would give. -/
theorem claim_C10_counterexample :
    get_nested_value (.obj [("a", .arr [.num 1, .num 2])]) "a.0" = Value.null ∧
    get_nested_value (.obj [("a", .arr [.num 1, .num 2])]) "a.0" ≠ Value.num 1 := by
  decide

/-- C10 (amended): dot-path lookup is total and follows the path's keys
through nested maps only; the empty path returns the value itself, a map step
looks the key up, and any non-map value met while keys remain — an array or a
scalar — yields the absent marker `None`. -/
theorem claim_C10 :
    (∀ v : Value, getNestedKeys v [] = v)
  ∧ (∀ (fs : List (String × Value)) (k : String) (rest : List String),
      getNestedKeys (.obj fs) (k :: rest) = getNestedKeys (dictGet fs k) rest)
  ∧ (∀ (v : Value) (k : String) (rest : List String), (∀ fs, v ≠ .obj fs) →
      getNestedKeys v (k :: rest) = .null)
  ∧ (∀ (xs : List Value) (keys : List String), keys ≠ [] →
      getNestedKeys (.arr xs) keys = .null)
  ∧ (∀ (obj : Value) (path : String),
      get_nested_value obj path = getNestedKeys obj (splitPath path)) := by
  refine ⟨fun v => by cases v <;> rfl, fun fs k rest => rfl, ?_, ?_, fun obj path => rfl⟩
  · intro v k rest hv
    cases v with
    | obj fs => exact absurd rfl (hv fs)
    | null => rfl
    | bool b => rfl
    | num q => rfl
    | str s => rfl
    | arr xs => rfl
  · intro xs keys hk
    cases keys with
    | nil => exact absurd rfl hk
    | cons k rest => rfl

/-- C10 witness: the amended characterisation applied at concrete inputs,
discharging each hypothesis. -/
theorem claim_C10_witness :
    getNestedKeys (.arr [.num 1]) ["x"] = .null ∧
    getNestedKeys (.str "s") ["x"] = .null :=
  ⟨claim_C10.2.2.2.1 [.num 1] ["x"] (by simp),
    claim_C10.2.2.1 (.str "s") "x" [] (by intro fs h; cases h)⟩

/-- Evaluation of `rangeIsInvalid` when both bounds coerce. -/
theorem rangeIsInvalid_eval (v m M : ℚ) (mv Mv : Value)
    (hm : pyFloat mv = some m) (hM : pyFloat Mv = some M) :
    rangeIsInvalid v (some mv) (some Mv) = some (decide (v < m) || decide (M < v)) := by
  simp [rangeIsInvalid, hm, hM]

/-- C1: the spec's range-rule contract. On `{hours: 30}` with
`range(field=hours, min=0, max=24)` exactly the one `error` violation with
the `{min, max}` hint is produced, and with auto-correction enabled the
corrected document reads back with `hours = 24`. In general, whenever the
field value and both bounds coerce to numbers, a violation is produced iff
the value is below `min` or above `max`, carrying the `{min, max}` hint at
the rule's severity (default `error`); and a non-null field value that fails
numeric coercion produces one `error` violation saying the field must be a
number. -/
theorem claim_C1 :
    (validateRange hoursDoc hoursRule = [hoursViolation]
      ∧ hoursViolation.severity = "error"
      ∧ hoursViolation.expected_value = some (.obj [("min", .num 0), ("max", .num 24)]))
  ∧ (readRoot
      (AutoCorrector.fix srcStrategies (allocValue hoursDoc emptyHeap).1
        (allocValue hoursDoc emptyHeap).2 [hoursViolation] (some autoCorrectCtx)).1
      (AutoCorrector.fix srcStrategies (allocValue hoursDoc emptyHeap).1
        (allocValue hoursDoc emptyHeap).2 [hoursViolation] (some autoCorrectCtx)).2.1
      = some (.obj [("hours", .num 24)]))
  ∧ (∀ (out : Value) (rule : RangeRule) (fv mv Mv : Value) (v m M : ℚ),
      get_nested_value out rule.field = fv → fv ≠ .null → pyFloat fv = some v →
      rule.min? = some mv → pyFloat mv = some m →
      rule.max? = some Mv → pyFloat Mv = some M →
      ((v < m ∨ M < v →
        validateRange out rule =
          [{ rule_name := rule.ruleName, violation_type := .constraint,
             field := rule.field,
             message := rule.field ++ " must be between " ++ pyStr mv ++ " and " ++ pyStr Mv,
             severity := rule.severity?.getD "error", found_value := fv,
             expected_value := some (.obj [("min", mv), ("max", Mv)]) }])
      ∧ (¬(v < m ∨ M < v) → validateRange out rule = [])))
  ∧ (∀ (out : Value) (rule : RangeRule) (fv : Value),
      get_nested_value out rule.field = fv → fv ≠ .null → pyFloat fv = none →
      validateRange out rule =
        [{ rule_name := rule.ruleName, violation_type := .constraint, field := rule.field,
           message := rule.field ++ " must be a number", severity := "error",
           found_value := fv, expected_value := some (.str "numeric value") }]) := by
  refine ⟨⟨by decide, by decide, by decide⟩, by decide, ?_, ?_⟩
  · intro out rule fv mv Mv v m M hval hnull hflt hmin hm hmax hM
    constructor
    · intro hout
      have hb : (decide (v < m) || decide (M < v)) = true := by
        rcases hout with h | h <;> simp [h]
      rw [validateRange.eq_def]
      simp only []
      rw [hval, if_neg hnull, hflt]
      simp only []
      rw [hmin, hmax, rangeIsInvalid_eval v m M mv Mv hm hM, hb]
    · intro hout
      have hb : (decide (v < m) || decide (M < v)) = false := by
        simp only [not_or] at hout
        simp [hout.1, hout.2]
      rw [validateRange.eq_def]
      simp only []
      rw [hval, if_neg hnull, hflt]
      simp only []
      rw [hmin, hmax, rangeIsInvalid_eval v m M mv Mv hm hM, hb]
  · intro out rule fv hval hnull hflt
    rw [validateRange.eq_def]
    simp only []
    rw [hval, if_neg hnull, hflt]

/-- C1 witness: the general clauses applied at `{hours: 30}` (both bounds
coerce, 30 is above max) and at `{hours: "abc"}` (coercion failure). -/
theorem claim_C1_witness :
    validateRange hoursDoc hoursRule = [hoursViolation] ∧
    validateRange (.obj [("hours", .str "abc")]) hoursRule =
      [{ rule_name := "hours_range_check", violation_type := .constraint, field := "hours",
         message := "hours must be a number", severity := "error",
         found_value := .str "abc", expected_value := some (.str "numeric value") }] := by
  constructor
  · have h := (claim_C1.2.2.1 hoursDoc hoursRule (.num 30) (.num 0) (.num 24) 30 0 24
      rfl (by decide) rfl rfl rfl rfl rfl).1 (by norm_num)
    rw [h]
    decide
  · exact claim_C1.2.2.2 (.obj [("hours", .str "abc")]) hoursRule (.str "abc") rfl
      (by decide) (by decide)

/-- C2: with no violations, no auto-correction, no statistical score and no
reference violations, the overall confidence is exactly 1.0 and its level is
`very_high`; and the violation-count sub-score `e^(-n/3)` strictly decreases
whenever any violation is added to the list. -/
theorem claim_C2 :
    (∀ (r : VResult) (stat : Option ℝ) (hasRef : Bool),
      r.violations = [] → r.auto_corrected = false → stat = none → hasRef = false →
      (ConfidenceScorer.calculate_confidence r stat hasRef).overall_confidence = 1
      ∧ ConfidenceScorer.get_confidence_level
          (ConfidenceScorer.calculate_confidence r stat hasRef).overall_confidence
          = "very_high")
  ∧ (∀ (vs : List Violation) (v : Violation),
      ConfidenceScorer.calculate_violation_score (v :: vs)
        < ConfidenceScorer.calculate_violation_score vs) := by
  constructor
  · intro r stat hasRef hviol hauto hstat href
    have hover : (ConfidenceScorer.calculate_confidence r stat hasRef).overall_confidence
        = 1 := by
      rw [ConfidenceScorer.calculate_confidence]
      simp only [ConfidenceScorer.calculate_violation_score,
        ConfidenceScorer.calculate_severity_score,
        ConfidenceScorer.calculate_auto_correction_penalty, hviol, hauto, hstat, href]
      norm_num
    refine ⟨hover, ?_⟩
    rw [hover, ConfidenceScorer.get_confidence_level, if_pos (by norm_num)]
  · intro vs v
    cases vs with
    | nil =>
      rw [ConfidenceScorer.calculate_violation_score,
        ConfidenceScorer.calculate_violation_score]
      rw [if_neg (by simp), if_pos rfl]
      rw [show (1 : ℝ) = Real.exp 0 from (Real.exp_zero).symm]
      apply Real.exp_lt_exp.mpr
      norm_num
    | cons w ws =>
      rw [ConfidenceScorer.calculate_violation_score,
        ConfidenceScorer.calculate_violation_score]
      rw [if_neg (by simp), if_neg (by simp)]
      apply Real.exp_lt_exp.mpr
      have h1 : ((v :: w :: ws).length : ℝ) = ((w :: ws).length : ℝ) + 1 := by
        push_cast [List.length_cons]
        ring
      rw [h1]
      have h2 : (0 : ℝ) ≤ ((w :: ws).length : ℝ) := by positivity
      linarith

/-- C2 witness: the empty-violations clause applied at a concrete result. -/
theorem claim_C2_witness :
    (ConfidenceScorer.calculate_confidence ⟨[], false, none⟩ none false).overall_confidence
      = 1
    ∧ ConfidenceScorer.get_confidence_level
        (ConfidenceScorer.calculate_confidence ⟨[], false, none⟩ none false).overall_confidence
        = "very_high" :=
  claim_C2.1 ⟨[], false, none⟩ none false rfl rfl rfl rfl

/-- C3, counterexample: `check` does raise for an unregistered connector
name — the source raises `KeyError` before the try/except that shields
connector calls, so the claim's "for every connector name" fails. -/
theorem claim_C3_counterexample :
    ExternalReferenceValidator.check [] "stripe_customer" (.str "cus_1") none 10
      = .error "Connector \x27stripe_customer\x27 is not registered." := by
  rfl

/-- C3 (amended): for every REGISTERED connector, `check` never raises: it
always returns a `ConnectorResult`, and when the connector times out or
raises, the result has `exists=False` and the corresponding explanatory
detail string. -/
theorem claim_C3 :
    ∀ (reg : ConnectorRegistry) (name : String)
      (conn : Value → Context → ConnectorBehavior) (value : Value)
      (params? : Option Context) (t : ℚ),
      assocFind reg name = some conn →
      (∃ r, ExternalReferenceValidator.check reg name value params? t = .ok r)
      ∧ (conn value (params?.getD []) = .timeout →
          ExternalReferenceValidator.check reg name value params? t
            = .ok { exists_ := false,
                    detail := "Connector \x27" ++ name ++ "\x27 timed out after "
                      ++ qToString t ++ "s" })
      ∧ (∀ msg, conn value (params?.getD []) = .raises msg →
          ExternalReferenceValidator.check reg name value params? t
            = .ok { exists_ := false,
                    detail := "Connector \x27" ++ name ++ "\x27 error: " ++ msg }) := by
  intro reg name conn value params? t hfind
  refine ⟨?_, ?_, ?_⟩
  · rw [ExternalReferenceValidator.check.eq_def, hfind]
    rcases hb : conn value (params?.getD []) with r | _ | msg <;> simp [hb]
  · intro hb
    rw [ExternalReferenceValidator.check.eq_def, hfind]
    simp [hb]
  · intro msg hb
    rw [ExternalReferenceValidator.check.eq_def, hfind]
    simp [hb]

/-- C3 witness: the amended contract applied to a one-connector registry that
times out and to one that raises. -/
theorem claim_C3_witness :
    ExternalReferenceValidator.check
        [("slow", fun _ _ => ConnectorBehavior.timeout)] "slow" (.str "x") none 10
      = .ok { exists_ := false, detail := "Connector \x27slow\x27 timed out after 10s" }
    ∧ ExternalReferenceValidator.check
        [("boom", fun _ _ => ConnectorBehavior.raises "fuse blown")] "boom" (.str "x") none 10
      = .ok { exists_ := false, detail := "Connector \x27boom\x27 error: fuse blown" } :=
  ⟨(claim_C3 [("slow", fun _ _ => ConnectorBehavior.timeout)] "slow"
      (fun _ _ => ConnectorBehavior.timeout) (.str "x") none 10 rfl).2.1 rfl,
    (claim_C3 [("boom", fun _ _ => ConnectorBehavior.raises "fuse blown")] "boom"
      (fun _ _ => ConnectorBehavior.raises "fuse blown") (.str "x") none 10 rfl).2.2
      "fuse blown" rfl⟩

/-- The document missing `timezone` of the spec's testable property. -/
def tzMissingDoc : Value := .obj [("city", .str "Dhaka")]

/-- The document with `timezone` explicitly null. -/
def tzNullDoc : Value := .obj [("timezone", .null), ("city", .str "Dhaka")]

/-- The document with `timezone: "UTC"`. -/
def tzUtcDoc : Value := .obj [("timezone", .str "UTC")]

/-- C4: `required(field=timezone, default_value="Asia/Dhaka")` with
auto-correction enabled. A document missing the field, and one with it
explicitly null, both auto-correct so that `timezone = "Asia/Dhaka"` (the
DefaultValue strategy fills from the `{default_value}` hint); a document with
`timezone: "UTC"` produces no violation and comes through the pipeline
unchanged, with no corrected output. -/
theorem claim_C4 :
    (readRoot
      (AutoCorrector.fix specStrategies (allocValue tzMissingDoc emptyHeap).1
        (allocValue tzMissingDoc emptyHeap).2
        (validateRequired tzMissingDoc timezoneRule) (some autoCorrectCtx)).1
      (AutoCorrector.fix specStrategies (allocValue tzMissingDoc emptyHeap).1
        (allocValue tzMissingDoc emptyHeap).2
        (validateRequired tzMissingDoc timezoneRule) (some autoCorrectCtx)).2.1
      = some (.obj [("city", .str "Dhaka"), ("timezone", .str "Asia/Dhaka")]))
  ∧ (readRoot
      (AutoCorrector.fix specStrategies (allocValue tzNullDoc emptyHeap).1
        (allocValue tzNullDoc emptyHeap).2
        (validateRequired tzNullDoc timezoneRule) (some autoCorrectCtx)).1
      (AutoCorrector.fix specStrategies (allocValue tzNullDoc emptyHeap).1
        (allocValue tzNullDoc emptyHeap).2
        (validateRequired tzNullDoc timezoneRule) (some autoCorrectCtx)).2.1
      = some (.obj [("timezone", .str "Asia/Dhaka"), ("city", .str "Dhaka")]))
  ∧ validateRequired tzUtcDoc timezoneRule = []
  ∧ ((AutoCorrector.fix specStrategies (allocValue tzUtcDoc emptyHeap).1
        (allocValue tzUtcDoc emptyHeap).2
        (validateRequired tzUtcDoc timezoneRule) (some autoCorrectCtx)).2.1 = none
    ∧ readN (Value.vsize tzUtcDoc)
        (AutoCorrector.fix specStrategies (allocValue tzUtcDoc emptyHeap).1
          (allocValue tzUtcDoc emptyHeap).2
          (validateRequired tzUtcDoc timezoneRule) (some autoCorrectCtx)).1
        (allocValue tzUtcDoc emptyHeap).2 = some tzUtcDoc) := by
  refine ⟨by decide, by decide, by decide, by decide, by decide⟩

/-- The document `{fiqh_school: "Hanafy"}` with a one-letter typo. -/
def hanafyDoc : Value := .obj [("fiqh_school", .str "Hanafy")]

/-- The document `{fiqh_school: "Sunni"}`, not close to any option. -/
def sunniDoc : Value := .obj [("fiqh_school", .str "Sunni")]

/-- C5: the enum rule on `fiqh_school` with auto-correction enabled. On
`"Hanafy"` the FuzzyMatch strategy substitutes the closest valid option,
producing the corrected value `"Hanafi"`; on `"Sunni"` the violation is
produced but remains unfixed — no option clears the 0.6 similarity
threshold, so no corrected output and no fix description is returned. -/
theorem claim_C5 :
    (validateEnum hanafyDoc fiqhRule).length = 1
  ∧ (readRoot
      (AutoCorrector.fix specStrategies (allocValue hanafyDoc emptyHeap).1
        (allocValue hanafyDoc emptyHeap).2
        (validateEnum hanafyDoc fiqhRule) (some autoCorrectCtx)).1
      (AutoCorrector.fix specStrategies (allocValue hanafyDoc emptyHeap).1
        (allocValue hanafyDoc emptyHeap).2
        (validateEnum hanafyDoc fiqhRule) (some autoCorrectCtx)).2.1
      = some (.obj [("fiqh_school", .str "Hanafi")]))
  ∧ (validateEnum sunniDoc fiqhRule).length = 1
  ∧ (AutoCorrector.fix specStrategies (allocValue sunniDoc emptyHeap).1
      (allocValue sunniDoc emptyHeap).2
      (validateEnum sunniDoc fiqhRule) (some autoCorrectCtx)).2.1 = none
  ∧ (AutoCorrector.fix specStrategies (allocValue sunniDoc emptyHeap).1
      (allocValue sunniDoc emptyHeap).2
      (validateEnum sunniDoc fiqhRule) (some autoCorrectCtx)).2.2 = [] := by
  refine ⟨by decide, by decide, by decide, by decide, by decide⟩

/-- C6, counterexample: with NO context supplied at all, `fix` is not a
no-op: on `{hours: 30}` with the range violation it applies the clamp and
returns a corrected root plus a fix description, where the claim predicts an
absent corrected document and an empty description list. -/
theorem claim_C6_counterexample :
    (AutoCorrector.fix srcStrategies (allocValue hoursDoc emptyHeap).1
      (allocValue hoursDoc emptyHeap).2 [hoursViolation] none).2.2
      = ["Clamped hours from 30 to 24 (range: 0-24)"]
    ∧ (AutoCorrector.fix srcStrategies (allocValue hoursDoc emptyHeap).1
        (allocValue hoursDoc emptyHeap).2 [hoursViolation] none).2.1 ≠ none := by
  decide

/-- C6 (amended): `fix` is a no-op — returning an absent corrected document
and an empty fix list without touching the heap — whenever a NON-EMPTY
context is supplied whose `auto_correct` entry is falsy (or missing); when
the context is `None` (or the empty dict, which is falsy in Python),
correction proceeds as if enabled. -/
theorem claim_C6 :
    ∀ (strats : List Strategy) (h : Heap) (output : ℕ) (viols : List Violation)
      (c : Context), c ≠ [] →
      pyTruthy (dictGetD c "auto_correct" (.bool false)) = false →
      AutoCorrector.fix strats h output viols (some c) = (h, none, []) := by
  intro strats h output viols c hc htruthy
  rw [AutoCorrector.fix.eq_def]
  simp only []
  rw [if_pos]
  simp [hc, htruthy]

/-- C6 witness: the amended no-op contract applied to a non-empty context
with `auto_correct: false`. -/
theorem claim_C6_witness :
    AutoCorrector.fix srcStrategies (allocValue hoursDoc emptyHeap).1
      (allocValue hoursDoc emptyHeap).2 [hoursViolation]
      (some [("auto_correct", .bool false)])
      = ((allocValue hoursDoc emptyHeap).1, none, []) :=
  claim_C6 srcStrategies (allocValue hoursDoc emptyHeap).1
    (allocValue hoursDoc emptyHeap).2 [hoursViolation]
    [("auto_correct", .bool false)] (by simp) rfl

/-- C7: for every `anomaly_ml` rule naming an organisation (resolved org id
truthy, fields specified) with no in-memory model and no loadable store
entry, evaluation emits exactly the one `warning` violation explaining that
training is needed, and the detector's `score` for that organisation returns
`is_anomaly = false` with the literal "not trained" reason — neither path
raises. -/
theorem claim_C7 :
    ∀ (st : DetectorState) (output : Value) (rule : AnomalyMLRule) (ctx? : Option Context),
      rule.fields ≠ [] →
      pyTruthy (resolveOrgId rule.org_id? ctx?) = true →
      assocFind st.models (pyStr (resolveOrgId rule.org_id? ctx?)) = none →
      assocFind st.store (pyStr (resolveOrgId rule.org_id? ctx?)) = none →
      validateAnomalyML st output rule ctx?
        = [{ rule_name := rule.name?.getD "anomaly_ml_check",
             violation_type := .statistical, field := "*",
             message := "IsolationForest model not yet trained for org=\x27"
               ++ pyStr (resolveOrgId rule.org_id? ctx?)
               ++ "\x27. Call MLAnomalyDetector.train() after collecting "
               ++ pyStr (rule.min_samples?.getD (.num 50)) ++ "+ records.",
             severity := "warning", found_value := .null }]
      ∧ MLAnomalyDetector.score st (pyStr (resolveOrgId rule.org_id? ctx?)) output
          rule.fields (rule.severity?.getD "warning")
        = { org_id := pyStr (resolveOrgId rule.org_id? ctx?), is_anomaly := false,
            raw_score := 0, severity := rule.severity?.getD "warning",
            fields_used := rule.fields,
            reason := "Model not trained yet — need more historical data." } := by
  intro st output rule ctx? hfields htruthy hmodels hstore
  constructor
  · rw [validateAnomalyML.eq_def]
    simp only []
    rw [if_neg (by simp [htruthy]), if_neg hfields, if_neg]
    rw [DetectorState.is_trained, hmodels, hstore]
    simp
  · rw [MLAnomalyDetector.score.eq_def, hmodels, hstore]

/-- C7 witness: the untrained-organisation contract at a concrete empty
detector state. -/
theorem claim_C7_witness :
    validateAnomalyML ⟨[], []⟩ (.obj [("latency", .num 3)])
        { fields := ["latency"], org_id? := some (.str "acme") } none
      = [{ rule_name := "anomaly_ml_check", violation_type := .statistical,
           field := "*",
           message := "IsolationForest model not yet trained for org=\x27"
             ++ pyStr (resolveOrgId (some (.str "acme")) none)
             ++ "\x27. Call MLAnomalyDetector.train() after collecting "
             ++ pyStr (Value.num 50) ++ "+ records.",
           severity := "warning", found_value := .null }]
    ∧ MLAnomalyDetector.score ⟨[], []⟩ (pyStr (resolveOrgId (some (.str "acme")) none))
        (.obj [("latency", .num 3)]) ["latency"] "warning"
      = { org_id := pyStr (resolveOrgId (some (.str "acme")) none), is_anomaly := false,
          raw_score := 0, severity := "warning", fields_used := ["latency"],
          reason := "Model not trained yet — need more historical data." } :=
  claim_C7 ⟨[], []⟩ (.obj [("latency", .num 3)])
    { fields := ["latency"], org_id? := some (.str "acme") } none
    (by simp) rfl rfl rfl

/-- C8, counterexample: a constraint whose expression evaluates to the
NON-BOOLEAN, truthy value `5` produces NO violation at all — the source
tests `if not result:` (Python truthiness), so the claim's "non-boolean
result produces a warning violation" fails. -/
theorem claim_C8_counterexample :
    pyEvalExpr (get_nested_value (.obj [("x", .num 5)]) "x") CExpr.var = .ok (.num 5)
    ∧ (∀ b, Value.num 5 ≠ .bool b)
    ∧ validateConstraint (.obj [("x", .num 5)]) { field := "x", expression := CExpr.var }
        = [] :=
  ⟨rfl, fun _ h => Value.noConfusion h, by decide⟩

/-- C8 (amended): for every constraint rule whose field value is present
(non-null): an expression that RAISES during evaluation yields exactly one
violation carrying "Constraint evaluation error: " plus the error message at
severity `warning`, and the exception never propagates; an expression that
evaluates to a FALSY result yields one violation at the rule's severity
(default `error`); a truthy result — boolean or not — yields no violation. -/
theorem claim_C8 :
    ∀ (output : Value) (rule : ConstraintRule),
      get_nested_value output rule.field ≠ .null →
      (∀ e, pyEvalExpr (get_nested_value output rule.field) rule.expression = .error e →
        validateConstraint output rule
          = [{ rule_name := rule.name?.getD (rule.field ++ "_constraint"),
               violation_type := .constraint, field := rule.field,
               message := "Constraint evaluation error: " ++ e,
               severity := "warning",
               found_value := get_nested_value output rule.field }])
      ∧ (∀ r, pyEvalExpr (get_nested_value output rule.field) rule.expression = .ok r →
          pyTruthy r = false →
          validateConstraint output rule
            = [{ rule_name := rule.name?.getD (rule.field ++ "_constraint"),
                 violation_type := .constraint, field := rule.field,
                 message := rule.message?.getD
                   ("Constraint failed: " ++ rule.expression.render),
                 severity := rule.severity?.getD "error",
                 found_value := get_nested_value output rule.field,
                 expected_value := some (.str rule.expression.render) }])
      ∧ (∀ r, pyEvalExpr (get_nested_value output rule.field) rule.expression = .ok r →
          pyTruthy r = true →
          validateConstraint output rule = []) := by
  intro output rule hnn
  refine ⟨?_, ?_, ?_⟩
  · intro e he
    rw [validateConstraint.eq_def]
    simp only []
    rw [if_neg hnn, he]
  · intro r hr hfalse
    rw [validateConstraint.eq_def]
    simp only []
    rw [if_neg hnn, hr]
    simp [hfalse]
  · intro r hr htrue
    rw [validateConstraint.eq_def]
    simp only []
    rw [if_neg hnn, hr]
    simp [htrue]

/-- C8 witness: the amended contract on a rule whose expression divides by
zero (error → warning violation) and on a falsy comparison (rule-severity
violation). -/
theorem claim_C8_witness :
    validateConstraint (.obj [("x", .num 5)])
        { field := "x", expression := .div (.lit (.num 1)) (.lit (.num 0)) }
      = [{ rule_name := "x_constraint", violation_type := .constraint, field := "x",
           message := "Constraint evaluation error: division by zero",
           severity := "warning", found_value := get_nested_value (.obj [("x", .num 5)]) "x" }]
    ∧ validateConstraint (.obj [("x", .num 5)])
        { field := "x", expression := .lit (.bool false) }
      = [{ rule_name := "x_constraint", violation_type := .constraint, field := "x",
           message := "Constraint failed: " ++ (CExpr.lit (.bool false)).render,
           severity := "error", found_value := get_nested_value (.obj [("x", .num 5)]) "x",
           expected_value := some (.str (CExpr.lit (.bool false)).render) }] :=
  ⟨(claim_C8 (.obj [("x", .num 5)])
      { field := "x", expression := .div (.lit (.num 1)) (.lit (.num 0)) }
      (by decide)).1 "division by zero" rfl,
    (claim_C8 (.obj [("x", .num 5)])
      { field := "x", expression := .lit (.bool false) }
      (by decide)).2.1 (.bool false) rfl rfl⟩

/-- C9: for every strategy list, document, violation list and context, after
`AutoCorrector.fix` runs on a heap holding a fresh allocation of the
caller's document, reading the document back through the original root still
yields the document unchanged (every strategy mutates only the deep copy),
and any corrected document returned lives at a different address than the
input — its mutations are never visible through the original. -/
theorem claim_C9 :
    ∀ (strats : List Strategy) (doc : Value) (viols : List Violation)
      (ctx? : Option Context),
      readN (Value.vsize doc)
        (AutoCorrector.fix strats (allocValue doc emptyHeap).1
          (allocValue doc emptyHeap).2 viols ctx?).1
        (allocValue doc emptyHeap).2 = some doc
      ∧ (AutoCorrector.fix strats (allocValue doc emptyHeap).1
          (allocValue doc emptyHeap).2 viols ctx?).2.1
          ≠ some (allocValue doc emptyHeap).2 := by
  intro strats doc viols ctx?
  have hempty : ∀ a n, emptyHeap.lookup a = some n → a < emptyHeap.next := by
    intro a n hl
    simp [emptyHeap, Heap.lookup, assocFind] at hl
  have hbounded := allocValue_bounded doc emptyHeap hempty
  have hI : HInv (allocValue doc emptyHeap).1.next (allocValue doc emptyHeap).1 := by
    refine ⟨?_, le_refl _⟩
    intro a n hge hl
    exact absurd (hbounded a n hl) (by omega)
  have hinv := AutoCorrectorFix_inv strats (allocValue doc emptyHeap).1
    (allocValue doc emptyHeap).2 viols ctx? hI
  constructor
  · rw [readN_frame hinv.1 (Value.vsize doc) (allocValue doc emptyHeap).2
      (allocValue_below doc emptyHeap)]
    exact allocValue_read doc emptyHeap (Value.vsize doc) (le_refl _)
  · intro heq
    have hge := hinv.2 (allocValue doc emptyHeap).2 heq
    have hlt := (allocValue_spec doc emptyHeap).2.1
    omega

end TruthChain
